import Mathlib

/-!
Verification development for the `tplenv` placeholder-resolution engine
(`src/main.rs`).  Documents are modelled as lists of characters; the
placeholder regex is modelled by an explicit leftmost-first matcher; the
`BTreeSet` collections of the source are modelled by sorted, deduplicated
lists of strings ordered by the lexicographic order on their characters
(which coincides with Rust's byte-wise `Ord` on `String`, since UTF-8
preserves codepoint order).  Definitions keep the source's names where
possible.
-/

/-- Documents and values are sequences of characters. -/
abbrev Text := List Char

/-- Unicode `White_Space` property, as used both by Rust's
`char::is_whitespace` and by the (Unicode-aware) `\s` class of the `regex`
crate. -/
def isWhiteSpaceChar (c : Char) : Bool :=
  c = ' ' || c = '\t' || c = '\n' || c = '\x0b' || c = '\x0c' || c = '\r' ||
  c = '\x85' || c = '\xa0' || c = '\u1680' ||
  (0x2000 ≤ c.toNat && c.toNat ≤ 0x200a) ||
  c = '\u2028' || c = '\u2029' || c = '\u202f' || c = '\u205f' || c = '\u3000'

/-- First character of an identifier: `[A-Za-z_]`. -/
def isIdentStart (c : Char) : Bool :=
  ('A' ≤ c && c ≤ 'Z') || ('a' ≤ c && c ≤ 'z') || c = '_'

/-- Identifier / path-segment character: `[A-Za-z0-9_]`. -/
def isIdentChar (c : Char) : Bool :=
  ('A' ≤ c && c ≤ 'Z') || ('a' ≤ c && c ≤ 'z') || ('0' ≤ c && c ≤ '9') || c = '_'

/-- Lexicographic comparison of character lists; models Rust's `Ord` on
`str` (byte-wise, which equals codepoint-wise order under UTF-8). -/
def charListLt : List Char → List Char → Bool
  | [], [] => false
  | [], _ :: _ => true
  | _ :: _, [] => false
  | a :: as, b :: bs => if a < b then true else if b < a then false else charListLt as bs

/-- String comparison used to model `BTreeSet<String>` ordering. -/
def strLtB (a b : String) : Bool := charListLt a.data b.data

/-- Ordered insertion without duplicates; models `BTreeSet::insert`. -/
def insSorted (a : String) : List String → List String
  | [] => [a]
  | b :: l => if strLtB a b then a :: b :: l else if a = b then b :: l else b :: insSorted a l

/-- Set union by repeated insertion; models `BTreeSet::extend`. -/
def unionSorted (base : List String) (other : List String) : List String :=
  other.foldl (fun acc x => insSorted x acc) base

/-- Classification of a placeholder occurrence: capture group 1 of the
regex yields a values path, the other groups an environment key. -/
inductive PKind where
  | valuesPath (p : String)
  | envKey (k : String)
deriving DecidableEq

/-- Parse an identifier `[A-Za-z_][A-Za-z0-9_]*`, returning its characters
and the rest of the text. -/
def parseIdent : Text → Option (Text × Text)
  | [] => none
  | c :: rest =>
    if isIdentStart c then
      some (c :: rest.takeWhile isIdentChar, rest.dropWhile isIdentChar)
    else none

/-- Parse the `(\.[A-Za-z0-9_]+)*` tail of a values path (greedy, one
dot-segment per fuel unit).  Returns the consumed characters and the rest. -/
def parsePathAux : Nat → Text → Text × Text
  | 0, cs => ([], cs)
  | fuel + 1, cs =>
    match cs with
    | '.' :: c :: rest =>
      if isIdentChar c then
        let seg := c :: rest.takeWhile isIdentChar
        let rem := rest.dropWhile isIdentChar
        let next := parsePathAux fuel rem
        ('.' :: seg ++ next.1, next.2)
      else ([], cs)
    | _ => ([], cs)

/-- Parse `\s*\}\}`, returning the rest of the text after the braces. -/
def parseClose2 (cs : Text) : Option Text :=
  match cs.dropWhile isWhiteSpaceChar with
  | '}' :: '}' :: rest => some rest
  | _ => none

/-- Leftmost-first match of the placeholder regex

`\{\{\s*(?:\.Values\.(path)|(ident))\s*\}\}|\$\{(ident)\}|\$(ident)`

at the start of the text; returns the classified occurrence and the
number of characters matched.  Mirrors `placeholder_regex` together with
the leftmost-first alternation semantics of the `regex` crate. -/
def matchAt (cs : Text) : Option (PKind × Nat) :=
  match cs with
  | '{' :: '{' :: rest =>
    (match rest.dropWhile isWhiteSpaceChar with
     | '.' :: 'V' :: 'a' :: 'l' :: 'u' :: 'e' :: 's' :: '.' :: r2 =>
       (match r2 with
        | c :: r3 =>
          if isIdentChar c then
            let seg := c :: r3.takeWhile isIdentChar
            let rem := r3.dropWhile isIdentChar
            let more := parsePathAux rem.length rem
            match parseClose2 more.2 with
            | some rest2 => some (.valuesPath (String.mk (seg ++ more.1)), cs.length - rest2.length)
            | none => none
          else none
        | [] => none)
     | other =>
       match parseIdent other with
       | some (id, rem) =>
         match parseClose2 rem with
         | some rest2 => some (.envKey (String.mk id), cs.length - rest2.length)
         | none => none
       | none => none)
  | '$' :: '{' :: rest =>
    (match parseIdent rest with
     | some (id, rem) =>
       match rem with
       | '}' :: rest2 => some (.envKey (String.mk id), cs.length - rest2.length)
       | _ => none
     | none => none)
  | '$' :: rest =>
    (match parseIdent rest with
     | some (id, rem) => some (.envKey (String.mk id), cs.length - rem.length)
     | none => none)
  | _ => none

/-- One segment of a scanned document: either a literal character (outside
every match) or a matched placeholder with its position and raw text. -/
inductive Seg where
  | lit (c : Char)
  | tok (pos : Nat) (kind : PKind) (raw : Text)

/-- Fueled single left-to-right scan, as performed by
`Regex::captures_iter` / `Regex::replace_all`: at each position try the
regex; on a match, skip past it; otherwise emit the character unchanged. -/
def segsF : Nat → Text → Nat → List Seg
  | 0, _, _ => []
  | _ + 1, [], _ => []
  | fuel + 1, c :: rest, pos =>
    match matchAt (c :: rest) with
    | some (k, len) =>
      .tok pos k ((c :: rest).take len) :: segsF fuel ((c :: rest).drop len) (pos + len)
    | none => .lit c :: segsF fuel rest (pos + 1)

/-- Segmentation of a document into literal gaps and matched spans. -/
def segs (t : Text) : List Seg := segsF t.length t 0

/-- Reassemble a segmentation, substituting each matched span via `f`. -/
def joinSegs (f : Nat → PKind → Text → Text) (l : List Seg) : Text :=
  l.flatMap fun s =>
    match s with
    | .lit c => [c]
    | .tok pos k raw => f pos k raw

/-- Fueled model of `Regex::replace_all`: literal text is copied, each
match is replaced by `repl` applied to its position, kind and raw text. -/
def renderF (repl : Nat → PKind → Text → Text) : Nat → Text → Nat → Text
  | 0, _, _ => []
  | _ + 1, [], _ => []
  | fuel + 1, c :: rest, pos =>
    match matchAt (c :: rest) with
    | some (k, len) =>
      repl pos k ((c :: rest).take len) ++ renderF repl fuel ((c :: rest).drop len) (pos + len)
    | none => c :: renderF repl fuel rest (pos + 1)

/-- Replace every placeholder occurrence of `t` using `repl`. -/
def renderWith (repl : Nat → PKind → Text → Text) (t : Text) : Text :=
  renderF repl t.length t 0

/-- The ordered list of placeholder occurrences of a document. -/
def scanOccs (t : Text) : List PKind :=
  (segs t).filterMap fun s =>
    match s with
    | .lit _ => none
    | .tok _ k _ => some k

/-- Rust `str::trim_end` (trailing whitespace removed). -/
def rustTrimEnd (t : Text) : Text := (t.reverse.dropWhile isWhiteSpaceChar).reverse

/-- Rust `str::trim_start` (leading whitespace removed). -/
def rustTrimStart (t : Text) : Text := t.dropWhile isWhiteSpaceChar

/-- Rust `str::trim` (both ends). -/
def rustTrim (t : Text) : Text := rustTrimEnd (rustTrimStart t)

/-- Mirrors `trim_line_ending`: strip trailing `\r` and `\n`. -/
def trim_line_ending (t : Text) : Text :=
  (t.reverse.dropWhile (fun c => c = '\r' || c = '\n')).reverse

/-- Mirrors `trim_surrounding_newlines`: strip `\r`/`\n` from both ends. -/
def trim_surrounding_newlines (t : Text) : Text :=
  ((t.dropWhile (fun c => c = '\r' || c = '\n')).reverse.dropWhile
    (fun c => c = '\r' || c = '\n')).reverse

/-- The values-document tree, modelling `serde_yaml::Value`.  Numbers are
modelled by integers (the claims under verification do not depend on
floating-point formatting). -/
inductive Yaml where
  | null
  | bool (b : Bool)
  | number (n : Int)
  | str (s : String)
  | sequence (xs : List Yaml)
  | mapping (entries : List (Yaml × Yaml))

/-- Equality test of a mapping key against `YamlValue::String(s)`: only a
string node can be equal to a string node. -/
def yamlKeyEqStr : Yaml → String → Bool
  | .str t, s => t = s
  | _, _ => false

/-- Mirrors `serde_yaml::Mapping::get` with a string key: the entry whose
key equals `YamlValue::String(s)`. -/
def mapGet : List (Yaml × Yaml) → String → Option Yaml
  | [], _ => none
  | (k, v) :: rest, s => if yamlKeyEqStr k s then some v else mapGet rest s

/-- Split a character list on `'.'`, mirroring Rust `str::split('.')`
(always at least one piece; empty pieces are kept). -/
def splitDot : Text → List Text
  | [] => [[]]
  | c :: rest =>
    if c = '.' then [] :: splitDot rest
    else
      match splitDot rest with
      | [] => [[c]]
      | p :: ps => (c :: p) :: ps

/-- The segment walk of `lookup_yaml_path`: consume one segment per level
through mapping nodes; a non-mapping node with segments remaining, or a
missing key, yields `none`. -/
def lookupSegs : Yaml → List String → Option Yaml
  | cur, [] => some cur
  | .mapping m, part :: rest =>
    (match mapGet m part with
     | some v => lookupSegs v rest
     | none => none)
  | _, _ :: _ => none

/-- Mirrors `lookup_yaml_path`: split the dotted path and walk the tree. -/
def lookup_yaml_path (root : Yaml) (path : String) : Option Yaml :=
  lookupSegs root ((splitDot path.data).map String.mk)

/-- Decimal text of an integer, modelling `i64`/`u64` `to_string`. -/
def intStr (n : Int) : String :=
  if n < 0 then "-" ++ (-n).toNat.repr else n.toNat.repr

/-- Canonical structured serialization of a subtree.  Models the external
`serde_yaml::to_string` emitter for composite nodes; the exact layout is
the library's, and the development relies only on the serialization being
nonempty with no trailing whitespace (serde_yaml quotes problematic
scalars), so composites are rendered here in a canonical flow style. -/
def flowSer : Yaml → String
  | .null => "null"
  | .bool b => if b then "true" else "false"
  | .number n => intStr n
  | .str s => "'" ++ s ++ "'"
  | .sequence xs =>
    "[" ++ String.intercalate ", " (xs.attach.map fun x => flowSer x.1) ++ "]"
  | .mapping es =>
    "\x7b" ++ String.intercalate ", "
      (es.attach.map fun e => flowSer e.1.1 ++ ": " ++ flowSer e.1.2) ++ "\x7d"
termination_by v => sizeOf v
decreasing_by
  · have h := List.sizeOf_lt_of_mem x.2
    simp only [Yaml.sequence.sizeOf_spec]
    omega
  · have h := List.sizeOf_lt_of_mem e.2
    obtain ⟨⟨k1, v1⟩, hm⟩ := e
    simp only [Prod.mk.sizeOf_spec] at h
    simp only [Yaml.mapping.sizeOf_spec]
    omega
  · have h := List.sizeOf_lt_of_mem e.2
    obtain ⟨⟨k1, v1⟩, hm⟩ := e
    simp only [Prod.mk.sizeOf_spec] at h
    simp only [Yaml.mapping.sizeOf_spec]
    omega

/-- Models `serde_yaml::to_string`, which terminates the document with a
single newline. -/
def serde_yaml_to_string (v : Yaml) : String := flowSer v ++ "\n"

/-- Rust `str::trim_end` lifted to `String`. -/
def rustTrimEndStr (s : String) : String := String.mk (rustTrimEnd s.data)

/-- Mirrors `yaml_value_to_string`: null is empty, booleans and numbers
print canonically, strings are verbatim, and composite subtrees are
serialized and trimmed with `trim_end`. -/
def yaml_value_to_string : Yaml → String
  | .null => ""
  | .bool b => if b then "true" else "false"
  | .number n => intStr n
  | .str s => s
  | v => rustTrimEndStr (serde_yaml_to_string v)

/-- Slice of a document between two character indices. -/
def sliceT (t : Text) (s e : Nat) : Text := (t.take e).drop s

/-- Mirrors `input[..pos].rfind('\n').map(|i| i + 1).unwrap_or(0)`: the
index of the first character of the line containing `pos`. -/
def lineStartAt (t : Text) (pos : Nat) : Nat :=
  match (t.take pos).reverse.findIdx? (· = '\n') with
  | some j => (t.take pos).length - j
  | none => 0

/-- Mirrors `input[pos..].find('\n')` resolved to an absolute index, with
the document length as fallback. -/
def lineEndAt (t : Text) (pos : Nat) : Nat :=
  match (t.drop pos).findIdx? (· = '\n') with
  | some i => pos + i
  | none => t.length

/-- Mirrors `should_use_yaml_block_scalar`: the text before the match on
its line, with trailing whitespace trimmed, ends in `:` or `-`, and the
text after the match on that line is empty after trimming. -/
def should_use_yaml_block_scalar (input : Text) (mStart mEnd : Nat) : Bool :=
  let lineStart := lineStartAt input mStart
  let lineEnd := lineEndAt input mEnd
  let preT := rustTrimEnd (sliceT input lineStart mStart)
  let sufT := rustTrim (sliceT input mEnd lineEnd)
  (preT.getLast? == some ':' || preT.getLast? == some '-') && sufT.isEmpty

/-- Mirrors `has_trailing_empty_lines`: the value ends in two or more
consecutive newlines. -/
def has_trailing_empty_lines (value : Text) : Bool :=
  decide (1 < (value.reverse.takeWhile (· = '\n')).length)

/-- Rust `str::split_inclusive('\n')`: pieces keep their terminator; a
final piece without `\n` is kept; the empty text has no pieces. -/
def splitInclusiveNL : Text → List Text
  | [] => []
  | c :: rest =>
    if c = '\n' then [c] :: splitInclusiveNL rest
    else
      match splitInclusiveNL rest with
      | [] => [[c]]
      | p :: ps => (c :: p) :: ps

/-- Mirrors `indent_every_line`: prepend `ind` to every inclusive line of
`value` (the source strips the `\n` suffix and re-appends it). -/
def indent_every_line (value ind : Text) : Text :=
  ((splitInclusiveNL value).map fun part =>
    match part.getLast? with
    | some '\n' => ind ++ part.dropLast ++ ['\n']
    | _ => ind ++ part).flatten

/-- Mirrors `format_as_yaml_block_scalar`: a `|` (or `|+`) header,
followed by the value with every line indented two spaces deeper than the
occurrence's line indentation. -/
def format_as_yaml_block_scalar (value input : Text) (mStart : Nat) : Text :=
  let lineIndent := (sliceT input (lineStartAt input mStart) mStart).takeWhile isWhiteSpaceChar
  let contentIndent := lineIndent ++ [' ', ' ']
  let indicator := if has_trailing_empty_lines value then ['|', '+'] else ['|']
  indicator ++ '\n' :: indent_every_line value contentIndent

/-- The character-pushing loop of `indent_multiline_value`: after each
newline that still has a following character, insert `ind`. -/
def insertIndentAfterInnerNewlines (ind : Text) : Text → Text
  | [] => []
  | c :: rest =>
    if c = '\n' && !rest.isEmpty then c :: (ind ++ insertIndentAfterInnerNewlines ind rest)
    else c :: insertIndentAfterInnerNewlines ind rest

/-- Mirrors `indent_multiline_value`: single-line values pass through;
otherwise the leading whitespace of the occurrence's line follows every
inner newline. -/
def indent_multiline_value (value input : Text) (mStart : Nat) : Text :=
  if !value.contains '\n' then value
  else
    let ind := (sliceT input (lineStartAt input mStart) mStart).takeWhile isWhiteSpaceChar
    insertIndentAfterInnerNewlines ind value

/-- Mirrors `format_replacement_with_indent`: single-line values verbatim;
multi-line values use block-scalar promotion when applicable, inline
continuation otherwise. -/
def format_replacement_with_indent (value input : Text) (mStart mEnd : Nat) : Text :=
  if !value.contains '\n' then value
  else if should_use_yaml_block_scalar input mStart mEnd then
    format_as_yaml_block_scalar value input mStart
  else indent_multiline_value value input mStart

/-- Mirrors `env_var_values_path`. -/
def env_var_values_path (var : String) : String := "environment." ++ var

/-- Shared shape of the three resolution loops of `run`: fold over the
keys, appending resolved entries to the first accumulator and missing
entries to the second. -/
def accumResolve {α β γ : Type} (f : String → Option α) (g : String → α → β)
    (h : String → γ) (l : List String) : List β × List γ :=
  l.foldl (fun acc v =>
    match f v with
    | some x => (acc.1 ++ [g v x], acc.2)
    | none => (acc.1, acc.2 ++ [h v])) ([], [])

/-- The body of the non-file-only env resolution loop (`run`, the `else`
branch of the mode switch): (1) the values document entry at
`environment.<KEY>`, then (2) a prompted override, then (3) the
environment lookup. -/
def resolveEnvKey (values_yaml : Option Yaml) (promptedEnv : List (String × String))
    (envLookup : String → Option String) (v : String) : Option String :=
  let fromValues :=
    match values_yaml with
    | some yaml => (lookup_yaml_path yaml (env_var_values_path v)).map yaml_value_to_string
    | none => none
  match fromValues with
  | some val => some val
  | none =>
    match List.lookup v promptedEnv with
    | some val => some val
    | none => envLookup v

/-- The non-file-only env resolution loop over all collected env keys,
accumulating the resolved map and the missing list in order. -/
def resolveEnvAll (values_yaml : Option Yaml) (promptedEnv : List (String × String))
    (envLookup : String → Option String) (envVars : List String) :
    List (String × String) × List String :=
  accumResolve (resolveEnvKey values_yaml promptedEnv envLookup)
    (fun v val => (v, val)) (fun v => v) envVars

/-- Mirrors `resolve_env_from_values_file`: each env key is looked up only
at `environment.<KEY>` in the values document; absences are returned as
missing values-file paths. -/
def resolve_env_from_values_file (envVars : List String) (yaml : Yaml) :
    List (String × String) × List String :=
  accumResolve (fun v => lookup_yaml_path yaml (env_var_values_path v))
    (fun v yv => (v, yaml_value_to_string yv)) env_var_values_path envVars

/-- The values-path resolution loop of `run`.  The source `expect`s the
values document to be loaded whenever paths exist; the `getD` models that
established invariant. -/
def resolveValuesAll (values_yaml : Option Yaml) (valuesPaths : List String) :
    List (String × String) × List String :=
  accumResolve (fun p => lookup_yaml_path (values_yaml.getD (Yaml.mapping [])) p)
    (fun p v => (p, yaml_value_to_string v)) (fun p => p) valuesPaths

/-- Mirrors `collect_placeholders`: fold the scanned occurrences into the
two ordered distinct-key sets (env keys, values paths). -/
def collect_placeholders (t : Text) : List String × List String :=
  (scanOccs t).foldl (fun acc k =>
    match k with
    | .valuesPath p => (acc.1, insSorted p acc.2)
    | .envKey v => (insSorted v acc.1, acc.2)) ([], [])

/-- Mirrors `collect_placeholders_all`: union the per-document sets. -/
def collect_placeholders_all (ts : List Text) : List String × List String :=
  ts.foldl (fun acc t =>
    (unionSorted acc.1 (collect_placeholders t).1,
     unionSorted acc.2 (collect_placeholders t).2)) ([], [])

/-- Outcome of the resolution phase of `run` (lines 193–267): the two
resolved maps and the two missing lists, all computed in full. -/
structure Resolution where
  envMap : List (String × String)
  valuesMap : List (String × String)
  missingEnv : List String
  missingValues : List String
deriving DecidableEq

/-- The resolution phase of `run`: env keys are resolved per mode
(file-only mode clears the missing-env list and reclassifies absences as
missing values-file paths), then values paths are resolved; the missing
values list is the reclassified env paths followed by the missing values
paths. -/
def computeResolution (fileOnly : Bool) (values_yaml : Option Yaml)
    (promptedEnv : List (String × String)) (envLookup : String → Option String)
    (envVars valuesPaths : List String) : Resolution :=
  let envPart :=
    if fileOnly then
      if envVars.isEmpty then (([], []), ([] : List String))
      else
        let r := resolve_env_from_values_file envVars (values_yaml.getD (Yaml.mapping []))
        ((r.1, []), r.2)
    else
      let r := resolveEnvAll values_yaml promptedEnv envLookup envVars
      ((r.1, r.2), [])
  let valsPart := resolveValuesAll values_yaml valuesPaths
  { envMap := envPart.1.1
    valuesMap := valsPart.1
    missingEnv := envPart.1.2
    missingValues := envPart.2 ++ valsPart.2 }

/-- The per-document rendering closure of `run`: look the key up in the
appropriate resolved map (defaulting to empty text), then apply the
indentation-aware formatting when the `--indent` flag is set. -/
def renderDoc (indent : Bool) (valuesMap envMap : List (String × String)) (input : Text) :
    Text :=
  renderWith (fun pos kind raw =>
    let rawVal :=
      match kind with
      | .valuesPath p => ((List.lookup p valuesMap).getD "").data
      | .envKey k => ((List.lookup k envMap).getD "").data
    if indent then format_replacement_with_indent rawVal input pos (pos + raw.length)
    else rawVal) input

/-- Result of a batch run: either every document rendered, or the missing
report (env keys, then values paths). -/
inductive RunOut where
  | rendered (docs : List Text)
  | missing (missing_env missing_values : List String)
deriving DecidableEq

/-- The resolution-and-rendering pipeline of `run` over one batch: collect
distinct keys over all documents, resolve everything, and render only if
both missing lists are empty. -/
def runModel (fileOnly indent : Bool) (values_yaml : Option Yaml)
    (promptedEnv : List (String × String)) (envLookup : String → Option String)
    (templates : List Text) : RunOut :=
  let sets := collect_placeholders_all templates
  let r := computeResolution fileOnly values_yaml promptedEnv envLookup sets.1 sets.2
  if r.missingEnv.isEmpty && r.missingValues.isEmpty then
    .rendered (templates.map (renderDoc indent r.valuesMap r.envMap))
  else .missing r.missingEnv r.missingValues

/-- The scan of `line_ranges`: byte ranges of every line, each range
ending just after its `\n`; a final unterminated line is kept. -/
def line_rangesGo : Text → Nat → Nat → List (Nat × Nat)
  | [], i, start => if start < i then [(start, i)] else []
  | c :: rest, i, start =>
    if c = '\n' then (start, i + 1) :: line_rangesGo rest (i + 1) (i + 1)
    else line_rangesGo rest (i + 1) start

/-- Mirrors `line_ranges`, including the `[(0, 0)]` fallback for an empty
document. -/
def line_ranges (t : Text) : List (Nat × Nat) :=
  let rs := line_rangesGo t 0 0
  if rs.isEmpty then [(0, 0)] else rs

/-- Text of the line with the given index (empty if out of range). -/
def lineTextAt (input : Text) (lines : List (Nat × Nat)) (idx : Nat) : Text :=
  match lines[idx]? with
  | some r => sliceT input r.1 r.2
  | none => []

/-- Mirrors `line_index_for_pos`. -/
def line_index_for_pos (lines : List (Nat × Nat)) (pos : Nat) : Option Nat :=
  lines.findIdx? fun r => decide (r.1 ≤ pos) && decide (pos < r.2)

/-- The backward `while` loop of `paragraph_bounds`: walk up while the
previous line is non-blank. -/
def paraStartGo (input : Text) (lines : List (Nat × Nat)) : Nat → Nat
  | 0 => 0
  | i + 1 =>
    if (rustTrim (trim_line_ending (lineTextAt input lines i))).isEmpty then i + 1
    else paraStartGo input lines i

/-- The forward `while` loop of `paragraph_bounds`: walk down while the
next line exists and is non-blank (fueled by the line count). -/
def paraEndGo (input : Text) (lines : List (Nat × Nat)) : Nat → Nat → Nat
  | 0, i => i
  | fuel + 1, i =>
    if i + 1 < lines.length then
      if (rustTrim (trim_line_ending (lineTextAt input lines (i + 1)))).isEmpty then i
      else paraEndGo input lines fuel (i + 1)
    else i

/-- Mirrors `paragraph_bounds`: the maximal run of non-blank lines around
the given line. -/
def paragraph_bounds (input : Text) (lines : List (Nat × Nat)) (lineIdx : Nat) : Nat × Nat :=
  (paraStartGo input lines lineIdx, paraEndGo input lines lines.length lineIdx)

/-- Mirrors `is_list_item_line`: after `trim_start`, a `"- "` prefix, or a
run of ASCII digits followed by `.` or `)` and a space. -/
def is_list_item_line (line : Text) : Bool :=
  let trimmed := rustTrimStart line
  if trimmed.take 2 = ['-', ' '] then true
  else
    let ds := trimmed.takeWhile (·.isDigit)
    if ds.isEmpty then false
    else
      match trimmed.dropWhile (·.isDigit) with
      | '.' :: ' ' :: _ => true
      | ')' :: ' ' :: _ => true
      | _ => false

/-- Mirrors `leading_spaces`: the number of leading `' '` characters. -/
def leading_spaces (line : Text) : Nat := (line.takeWhile (· = ' ')).length

/-- The backward anchor scan of `list_entry_bounds`: from the occurrence's
line down to the paragraph start, the first line that is a list marker
(fueled by the distance to the paragraph start). -/
def findAnchorGo (input : Text) (lines : List (Nat × Nat)) (ps : Nat) :
    Nat → Nat → Option Nat
  | 0, i => if is_list_item_line (trim_line_ending (lineTextAt input lines i)) then some i else none
  | fuel + 1, i =>
    if is_list_item_line (trim_line_ending (lineTextAt input lines i)) then some i
    else if i ≤ ps then none
    else findAnchorGo input lines ps fuel (i - 1)

/-- The forward extent loop of `list_entry_bounds`: from the line after
the anchor up to the paragraph end, stop just before a blank line or a
list-marker line at indentation at most the anchor's. -/
def findEndGo (input : Text) (lines : List (Nat × Nat)) (pe aIndent : Nat) :
    Nat → Nat → Nat
  | 0, _ => pe
  | fuel + 1, idx =>
    if pe < idx then pe
    else
      let line := trim_line_ending (lineTextAt input lines idx)
      if (rustTrim line).isEmpty then idx - 1
      else if is_list_item_line line && decide (leading_spaces line ≤ aIndent) then idx - 1
      else findEndGo input lines pe aIndent fuel (idx + 1)

/-- Mirrors `list_entry_bounds`. -/
def list_entry_bounds (input : Text) (lines : List (Nat × Nat))
    (lineIdx ps pe : Nat) : Option (Nat × Nat) :=
  match findAnchorGo input lines ps (lineIdx - ps) lineIdx with
  | none => none
  | some a =>
    let aIndent := leading_spaces (trim_line_ending (lineTextAt input lines a))
    some (a, findEndGo input lines pe aIndent (pe + 1) (a + 1))

/-- Mirrors `collect_prompt_keys`: the ordered distinct set of keys
referenced by the text, env keys normalized to `environment.<KEY>`. -/
def collect_prompt_keys (t : Text) : List String :=
  (scanOccs t).foldl (fun acc k =>
    match k with
    | .valuesPath p => insSorted p acc
    | .envKey v => insSorted (env_var_values_path v) acc) []

/-- The paragraph text around the line containing `mStart`. -/
def paragraphTextAt (input : Text) (mStart : Nat) : Text :=
  let lines := line_ranges input
  let li := (line_index_for_pos lines mStart).getD 0
  let pb := paragraph_bounds input lines li
  sliceT input ((lines[pb.1]?.getD (0, 0)).1) ((lines[pb.2]?.getD (0, 0)).2)

/-- Mirrors `extract_prompt_context` (with the occurrence given by its
match start): the single line in basic mode; in extended mode the
paragraph when its distinct keys are exactly the occurrence's key,
otherwise the enclosing list item, otherwise the single line. -/
def extract_prompt_context (input : Text) (mStart : Nat) (key : String)
    (extended : Bool) : Text :=
  let lines := line_ranges input
  let li := (line_index_for_pos lines mStart).getD 0
  if !extended then trim_line_ending (lineTextAt input lines li)
  else
    let pb := paragraph_bounds input lines li
    let paraText := paragraphTextAt input mStart
    let keys := collect_prompt_keys paraText
    if decide (keys.length = 1) && keys.contains key then
      trim_surrounding_newlines paraText
    else
      match list_entry_bounds input lines li pb.1 pb.2 with
      | some b =>
        trim_surrounding_newlines
          (sliceT input ((lines[b.1]?.getD (0, 0)).1) ((lines[b.2]?.getD (0, 0)).2))
      | none => trim_line_ending (lineTextAt input lines li)

lemma dropWhileLen (p : Char → Bool) (l : Text) : (l.dropWhile p).length ≤ l.length := by
  induction l with
  | nil => simp
  | cons c rest ih =>
    simp only [List.dropWhile]
    split
    · simp only [List.length_cons]; omega
    · simp

lemma parseIdent_len {cs : Text} {pr : Text × Text} (h : parseIdent cs = some pr) :
    pr.2.length < cs.length := by
  match cs with
  | [] => simp [parseIdent] at h
  | c :: rest =>
    simp only [parseIdent] at h
    split at h
    · cases h
      have := dropWhileLen isIdentChar rest
      simp only [List.length_cons]
      omega
    · cases h

lemma parsePathAux_len : ∀ (fuel : Nat) (cs : Text), (parsePathAux fuel cs).2.length ≤ cs.length := by
  intro fuel
  induction fuel with
  | zero => intro cs; simp [parsePathAux]
  | succ n ih =>
    intro cs
    simp only [parsePathAux]
    split
    · split
      · next c rest hc =>
        have h1 := ih (rest.dropWhile isIdentChar)
        have h2 := dropWhileLen isIdentChar rest
        simp only [List.length_cons]
        omega
      · simp
    · simp

lemma parseClose2_len {cs rest : Text} (h : parseClose2 cs = some rest) :
    rest.length + 2 ≤ cs.length := by
  have hd := dropWhileLen isWhiteSpaceChar cs
  simp only [parseClose2] at h
  split at h
  · next heq =>
    cases h
    rw [heq] at hd
    simp only [List.length_cons] at hd
    omega
  · cases h

lemma matchAt_one_le_len {cs : Text} {k : PKind} {len : Nat}
    (h : matchAt cs = some (k, len)) : 1 ≤ len ∧ len ≤ cs.length := by
  simp only [matchAt] at h
  split at h
  case _ rest =>
    have hws := dropWhileLen isWhiteSpaceChar rest
    split at h
    case _ r2 heq =>
      split at h
      case _ c r3 =>
        split at h
        case isTrue hc =>
          have hdw := dropWhileLen isIdentChar r3
          have hpa := parsePathAux_len (r3.dropWhile isIdentChar).length (r3.dropWhile isIdentChar)
          split at h
          case _ rest2 hcl =>
            have hc2 := parseClose2_len hcl
            cases h
            rw [heq] at hws
            simp only [List.length_cons] at hws hc2 hpa hdw ⊢
            omega
          case _ => cases h
        case isFalse hc => cases h
      case _ => cases h
    case _ heq =>
      split at h
      case _ id rem hpi =>
        have hid := parseIdent_len hpi
        split at h
        case _ rest2 hcl =>
          have hc2 := parseClose2_len hcl
          cases h
          simp only [List.length_cons] at *
          omega
        case _ => cases h
      case _ => cases h
  case _ rest =>
    split at h
    case _ id rem hpi =>
      have hid := parseIdent_len hpi
      split at h
      case _ rest2 heq2 =>
        cases h
        simp only [List.length_cons] at *
        omega
      case _ => cases h
    case _ => cases h
  case _ rest hne =>
    split at h
    case _ id rem hpi =>
      have hid := parseIdent_len hpi
      cases h
      simp only [List.length_cons] at *
      omega
    case _ => cases h
  case _ => cases h

lemma renderF_eq_joinSegs (repl : Nat → PKind → Text → Text) :
    ∀ (fuel : Nat) (cs : Text) (pos : Nat),
      renderF repl fuel cs pos = joinSegs repl (segsF fuel cs pos) := by
  intro fuel
  induction fuel with
  | zero => intro cs pos; simp [renderF, segsF, joinSegs]
  | succ n ih =>
    intro cs pos
    match cs with
    | [] => simp [renderF, segsF, joinSegs]
    | c :: rest =>
      simp only [renderF, segsF]
      split
      · next k len heq =>
        simp [joinSegs, ih]
      · simp [joinSegs, ih]

lemma segsF_join_orig :
    ∀ (fuel : Nat) (cs : Text) (pos : Nat), cs.length ≤ fuel →
      joinSegs (fun _ _ raw => raw) (segsF fuel cs pos) = cs := by
  intro fuel
  induction fuel with
  | zero =>
    intro cs pos hle
    have : cs = [] := List.length_eq_zero.mp (Nat.le_zero.mp hle)
    subst this
    simp [segsF, joinSegs]
  | succ n ih =>
    intro cs pos hle
    match cs with
    | [] => simp [segsF, joinSegs]
    | c :: rest =>
      simp only [segsF]
      split
      · next k len heq =>
        obtain ⟨h1, h2⟩ := matchAt_one_le_len heq
        simp only [joinSegs, List.flatMap_cons]
        have hdl : ((c :: rest).drop len).length ≤ n := by
          simp only [List.length_drop]
          simp only [List.length_cons] at hle ⊢
          omega
        have hrec := ih ((c :: rest).drop len) (pos + len) hdl
        simp only [joinSegs] at hrec
        rw [hrec]
        exact List.take_append_drop len (c :: rest)
      · next heq =>
        simp only [joinSegs, List.flatMap_cons]
        have hdl : rest.length ≤ n := by
          simp only [List.length_cons] at hle; omega
        have hrec := ih rest (pos + 1) hdl
        simp only [joinSegs] at hrec
        rw [hrec]
        simp

lemma joinSegs_of_all_lit (f g : Nat → PKind → Text → Text) :
    ∀ l : List Seg,
      (∀ s ∈ l, (match s with | Seg.lit _ => (none : Option PKind) | Seg.tok _ k _ => some k) = none) →
      joinSegs f l = joinSegs g l := by
  intro l
  induction l with
  | nil => intro _; rfl
  | cons s rest ih =>
    intro h
    match s with
    | .lit c =>
      simp only [joinSegs, List.flatMap_cons]
      have := ih fun s hs => h s (List.mem_cons_of_mem _ hs)
      simp only [joinSegs] at this
      rw [this]
    | .tok pos k raw =>
      have := h _ (List.mem_cons_self _ _)
      simp at this

/-- Claim C8: rendering alters only bytes inside matched placeholder
spans.  The rendered output is the concatenation of the untouched literal
gaps and the per-span replacements of the single left-to-right
segmentation of the input; reassembling that same segmentation with the
original span text yields the input unchanged; and a document with zero
placeholder occurrences (malformed placeholder-looking text included)
renders to itself, for every replacement function. -/
theorem rendering_touches_only_matched_spans
    (repl : Nat → PKind → Text → Text) (t : Text) :
    renderWith repl t = joinSegs repl (segs t) ∧
    joinSegs (fun _ _ raw => raw) (segs t) = t ∧
    (scanOccs t = [] → renderWith repl t = t) := by
  refine ⟨renderF_eq_joinSegs repl t.length t 0, segsF_join_orig t.length t 0 le_rfl, ?_⟩
  intro hempty
  have hall : ∀ s ∈ segs t,
      (match s with | Seg.lit _ => (none : Option PKind) | Seg.tok _ k _ => some k) = none := by
    intro s hs
    have := List.filterMap_eq_nil_iff.mp hempty s hs
    exact this
  calc renderWith repl t = joinSegs repl (segs t) := renderF_eq_joinSegs repl t.length t 0
    _ = joinSegs (fun _ _ raw => raw) (segs t) := joinSegs_of_all_lit _ _ _ hall
    _ = t := segsF_join_orig t.length t 0 le_rfl

/-- Witness for C8 at a concrete document consisting of malformed,
partial placeholder-looking text: no occurrence is found and rendering
returns the input unchanged. -/
theorem rendering_touches_only_matched_spans_witness :
    scanOccs "a: \x7bx\x7d $\x7b b $1 \x7b\x7b .Values. \x7d\x7d".data = [] ∧
    renderWith (fun _ _ _ => "Z".data) "a: \x7bx\x7d $\x7b b $1 \x7b\x7b .Values. \x7d\x7d".data
      = "a: \x7bx\x7d $\x7b b $1 \x7b\x7b .Values. \x7d\x7d".data :=
  ⟨by decide,
   (rendering_touches_only_matched_spans (fun _ _ _ => "Z".data)
     "a: \x7bx\x7d $\x7b b $1 \x7b\x7b .Values. \x7d\x7d".data).2.2 (by decide)⟩

lemma accumResolve_char {α β γ : Type} (f : String → Option α) (g : String → α → β)
    (h : String → γ) (l : List String) :
    accumResolve f g h l
      = (l.filterMap (fun v => (f v).map (g v)),
         (l.filter fun v => (f v).isNone).map h) := by
  suffices hgen : ∀ (l : List String) (acc : List β × List γ),
      l.foldl (fun acc v =>
        match f v with
        | some x => (acc.1 ++ [g v x], acc.2)
        | none => (acc.1, acc.2 ++ [h v])) acc
      = (acc.1 ++ l.filterMap (fun v => (f v).map (g v)),
         acc.2 ++ (l.filter fun v => (f v).isNone).map h) by
    have := hgen l ([], [])
    simpa [accumResolve] using this
  intro l
  induction l with
  | nil => intro acc; simp
  | cons v rest ih =>
    intro acc
    simp only [List.foldl_cons]
    cases hfv : f v with
    | some x =>
      rw [ih]
      simp [hfv]
    | none =>
      rw [ih]
      simp [hfv]

lemma resolveEnvAll_char (values_yaml : Option Yaml) (promptedEnv : List (String × String))
    (envLookup : String → Option String) (envVars : List String) :
    resolveEnvAll values_yaml promptedEnv envLookup envVars
      = (envVars.filterMap fun v =>
           (resolveEnvKey values_yaml promptedEnv envLookup v).map fun x => (v, x),
         envVars.filter fun v =>
           (resolveEnvKey values_yaml promptedEnv envLookup v).isNone) := by
  have h1 := accumResolve_char (resolveEnvKey values_yaml promptedEnv envLookup)
    (fun v x => (v, x)) (fun v => v) envVars
  simpa [List.map_id, List.map_id'] using h1

lemma resolve_env_from_values_file_char (envVars : List String) (yaml : Yaml) :
    resolve_env_from_values_file envVars yaml
      = (envVars.filterMap fun v =>
           (lookup_yaml_path yaml (env_var_values_path v)).map fun yv =>
             (v, yaml_value_to_string yv),
         (envVars.filter fun v =>
            (lookup_yaml_path yaml (env_var_values_path v)).isNone).map env_var_values_path) := by
  exact accumResolve_char (fun v => lookup_yaml_path yaml (env_var_values_path v))
    (fun v yv => (v, yaml_value_to_string yv)) env_var_values_path envVars

lemma resolveValuesAll_char (values_yaml : Option Yaml) (valuesPaths : List String) :
    resolveValuesAll values_yaml valuesPaths
      = (valuesPaths.filterMap fun p =>
           (lookup_yaml_path (values_yaml.getD (Yaml.mapping [])) p).map fun v =>
             (p, yaml_value_to_string v),
         valuesPaths.filter fun p =>
           (lookup_yaml_path (values_yaml.getD (Yaml.mapping [])) p).isNone) := by
  have h1 := accumResolve_char (fun p => lookup_yaml_path (values_yaml.getD (Yaml.mapping [])) p)
    (fun p v => (p, yaml_value_to_string v)) (fun p => p) valuesPaths
  simpa [List.map_id, List.map_id'] using h1

/-- Claim C1: in non-file-only mode each env key is resolved from, in
order, (1) the values-document entry at `environment.<KEY>`, (2) a
prompted override, (3) the environment lookup; the first source that
yields a value wins (in particular a values-document entry beats the
environment lookup), the key is missing exactly when all three sources
are absent, and the missing-env list of the resolution loop is exactly
the set of keys for which all three sources are absent. -/
theorem env_key_resolution_precedence (yaml : Yaml) (pm : List (String × String))
    (envF : String → Option String) (v : String) (vars : List String) :
    (∀ yv, lookup_yaml_path yaml (env_var_values_path v) = some yv →
      resolveEnvKey (some yaml) pm envF v = some (yaml_value_to_string yv)) ∧
    (lookup_yaml_path yaml (env_var_values_path v) = none →
      ∀ x, List.lookup v pm = some x → resolveEnvKey (some yaml) pm envF v = some x) ∧
    (lookup_yaml_path yaml (env_var_values_path v) = none → List.lookup v pm = none →
      resolveEnvKey (some yaml) pm envF v = envF v) ∧
    (resolveEnvKey (some yaml) pm envF v = none ↔
      lookup_yaml_path yaml (env_var_values_path v) = none ∧
      List.lookup v pm = none ∧ envF v = none) ∧
    (resolveEnvAll (some yaml) pm envF vars).2
      = vars.filter fun u => (resolveEnvKey (some yaml) pm envF u).isNone := by
  refine ⟨?_, ?_, ?_, ?_, ?_⟩
  · intro yv hyv
    simp [resolveEnvKey, hyv]
  · intro hnone x hx
    simp [resolveEnvKey, hnone, hx]
  · intro hnone hpm
    simp [resolveEnvKey, hnone, hpm]
  · constructor
    · intro h
      simp only [resolveEnvKey] at h
      cases hyv : lookup_yaml_path yaml (env_var_values_path v) with
      | some yv => simp [hyv] at h
      | none =>
        cases hpm : List.lookup v pm with
        | some x => simp [hyv, hpm] at h
        | none =>
          refine ⟨rfl, rfl, ?_⟩
          simpa [hyv, hpm] using h
    · rintro ⟨h1, h2, h3⟩
      simp [resolveEnvKey, h1, h2, h3]
  · exact congrArg Prod.snd (resolveEnvAll_char (some yaml) pm envF vars)

/-- Witness for C1 at the spec's precedence example: the values document
holds `environment.FOO: "x"`, a prompted override and the env lookup
disagree, and the values-document entry wins. -/
theorem env_key_resolution_precedence_witness :
    resolveEnvKey
      (some (Yaml.mapping [(Yaml.str "environment",
        Yaml.mapping [(Yaml.str "FOO", Yaml.str "x")])]))
      [("FOO", "p")] (fun _ => some "y") "FOO" = some "x" :=
  (env_key_resolution_precedence
    (Yaml.mapping [(Yaml.str "environment", Yaml.mapping [(Yaml.str "FOO", Yaml.str "x")])])
    [("FOO", "p")] (fun _ => some "y") "FOO" []).1 (Yaml.str "x") rfl

/-- Claim C2: in file-only mode the batch outcome is independent of the
environment-lookup function (it is never consulted); the missing-env list
is always empty; and `resolve_env_from_values_file` resolves each key
solely from the `environment.<KEY>` values-document entry, reporting each
absent key as the missing values-file path `environment.<KEY>`. -/
theorem file_only_resolution (ind : Bool) (vy : Option Yaml)
    (pm : List (String × String)) (envF1 envF2 : String → Option String)
    (ts : List Text) (ev vp : List String) (yaml : Yaml) :
    runModel true ind vy pm envF1 ts = runModel true ind vy pm envF2 ts ∧
    (computeResolution true vy pm envF1 ev vp).missingEnv = [] ∧
    (resolve_env_from_values_file ev yaml).1
      = (ev.filterMap fun v =>
          (lookup_yaml_path yaml (env_var_values_path v)).map fun yv =>
            (v, yaml_value_to_string yv)) ∧
    (resolve_env_from_values_file ev yaml).2
      = ((ev.filter fun v =>
          (lookup_yaml_path yaml (env_var_values_path v)).isNone).map env_var_values_path) := by
  refine ⟨rfl, ?_, ?_, ?_⟩
  · by_cases hev : ev.isEmpty <;> simp [computeResolution, hev]
  · exact congrArg Prod.fst (resolve_env_from_values_file_char ev yaml)
  · exact congrArg Prod.snd (resolve_env_from_values_file_char ev yaml)

/-- Trim only trailing newline characters (the claim's wording), as
opposed to the source's `trim_end` which trims all trailing whitespace. -/
def trimTrailingNewlines (s : String) : String :=
  String.mk ((s.data.reverse.dropWhile (· = '\n')).reverse)

/-- Stringification as claim C9 words it: null to the empty string,
booleans to `true`/`false`, numbers to canonical decimal text, strings
verbatim, composites to their canonical structured serialization with any
trailing newline trimmed. -/
def stringifyClaimed : Yaml → String
  | .null => ""
  | .bool b => if b then "true" else "false"
  | .number n => intStr n
  | .str s => s
  | v => trimTrailingNewlines (serde_yaml_to_string v)

lemma data_append (s t : String) : (s ++ t).data = s.data ++ t.data := by
  cases s; cases t; rfl

lemma flowSer_sequence_data (xs : List Yaml) :
    ∃ l, (flowSer (Yaml.sequence xs)).data = l ++ [']'] := by
  refine ⟨("[" ++ String.intercalate ", " (xs.attach.map fun x => flowSer x.1)).data, ?_⟩
  rw [flowSer, data_append]

lemma flowSer_mapping_data (es : List (Yaml × Yaml)) :
    ∃ l, (flowSer (Yaml.mapping es)).data = l ++ ['}'] := by
  refine ⟨("\x7b" ++ String.intercalate ", "
    (es.attach.map fun e => flowSer e.1.1 ++ ": " ++ flowSer e.1.2)).data, ?_⟩
  rw [flowSer, data_append]

lemma trimEnd_append_end {l : Text} {c : Char} (hc : isWhiteSpaceChar c = false) :
    rustTrimEnd ((l ++ [c]) ++ ['\n']) = l ++ [c] := by
  unfold rustTrimEnd
  rw [List.reverse_append, List.reverse_append]
  simp only [List.reverse_cons, List.reverse_nil, List.nil_append, List.singleton_append]
  rw [List.dropWhile_cons_of_pos (by decide), List.dropWhile_cons_of_neg (by simp [hc])]
  simp

lemma trimNL_append_end {l : Text} {c : Char} (hc : (c = '\n') = False) :
    (((l ++ [c]) ++ ['\n']).reverse.dropWhile (· = '\n')).reverse = l ++ [c] := by
  rw [List.reverse_append, List.reverse_append]
  simp only [List.reverse_cons, List.reverse_nil, List.nil_append, List.singleton_append]
  rw [List.dropWhile_cons_of_pos (by decide), List.dropWhile_cons_of_neg (by simp [hc])]
  simp

/-- Claim C9: stringifying a resolved node yields the empty string for
null, `true`/`false` for booleans, canonical decimal text for numbers,
the string's content verbatim, and for sequences and mappings the
subtree's canonical structured serialization with any trailing newline
trimmed (the source's `trim_end` coincides with trimming the trailing
newline because the serialization ends in a non-whitespace character
before its final newline). -/
theorem stringification_of_nodes (v : Yaml) :
    yaml_value_to_string v = stringifyClaimed v := by
  cases v with
  | null => rfl
  | bool b => rfl
  | number n => rfl
  | str s => rfl
  | sequence xs =>
    obtain ⟨l, hl⟩ := flowSer_sequence_data xs
    show rustTrimEndStr (serde_yaml_to_string (Yaml.sequence xs))
      = trimTrailingNewlines (serde_yaml_to_string (Yaml.sequence xs))
    unfold rustTrimEndStr trimTrailingNewlines serde_yaml_to_string
    rw [data_append, hl]
    rw [show ("\n" : String).data = ['\n'] from rfl]
    rw [trimEnd_append_end (by decide)]
    rw [trimNL_append_end (by decide)]
  | mapping es =>
    obtain ⟨l, hl⟩ := flowSer_mapping_data es
    show rustTrimEndStr (serde_yaml_to_string (Yaml.mapping es))
      = trimTrailingNewlines (serde_yaml_to_string (Yaml.mapping es))
    unfold rustTrimEndStr trimTrailingNewlines serde_yaml_to_string
    rw [data_append, hl]
    rw [show ("\n" : String).data = ['\n'] from rfl]
    rw [trimEnd_append_end (by decide)]
    rw [trimNL_append_end (by decide)]

lemma mapGet_none_of_no_str {es : List (Yaml × Yaml)}
    (h : ∀ e ∈ es, ∀ t, e.1 ≠ Yaml.str t) (u : String) : mapGet es u = none := by
  induction es with
  | nil => rfl
  | cons e rest ih =>
    obtain ⟨k, w⟩ := e
    have hk := h (k, w) (List.mem_cons_self _ _)
    have hkeq : yamlKeyEqStr k u = false := by
      cases k with
      | str t => exact absurd rfl (hk t)
      | null => rfl
      | bool b => rfl
      | number n => rfl
      | sequence xs => rfl
      | mapping m => rfl
    simp only [mapGet, hkeq]
    simp only [Bool.false_eq_true, if_false]
    exact ih fun e he => h e (List.mem_cons_of_mem _ he)

lemma splitDot_ne_nil (cs : Text) : splitDot cs ≠ [] := by
  cases cs with
  | nil => simp [splitDot]
  | cons c rest =>
    simp only [splitDot]
    split
    · simp
    · split <;> simp

/-- Claim C10: values-path lookup matches a path segment only against
mapping keys that are YAML strings.  A non-string key (for example the
bare numeric key `8080`) is never matched — even by the identically
spelled segment — so the lookup skips it, a mapping whose keys are all
non-strings resolves no path at all, while a string key with the same
spelling does match. -/
theorem lookup_matches_only_string_keys (k : Yaml) (hk : ∀ t, k ≠ Yaml.str t)
    (w : Yaml) (entries : List (Yaml × Yaml)) (s : String) :
    mapGet ((k, w) :: entries) s = mapGet entries s ∧
    (∀ (es : List (Yaml × Yaml)) (p : String),
      (∀ e ∈ es, ∀ t, e.1 ≠ Yaml.str t) → lookup_yaml_path (Yaml.mapping es) p = none) ∧
    lookup_yaml_path (Yaml.mapping [(Yaml.number 8080, Yaml.str "x")]) "8080" = none ∧
    intStr 8080 = "8080" ∧
    (∀ v2, mapGet ((Yaml.str s, v2) :: entries) s = some v2) := by
  refine ⟨?_, ?_, rfl, by decide, ?_⟩
  · have hkeq : yamlKeyEqStr k s = false := by
      cases k with
      | str t => exact absurd rfl (hk t)
      | null => rfl
      | bool b => rfl
      | number n => rfl
      | sequence xs => rfl
      | mapping m => rfl
    simp [mapGet, hkeq]
  · intro es p hes
    unfold lookup_yaml_path
    obtain ⟨x, xs, hx⟩ := List.exists_cons_of_ne_nil (splitDot_ne_nil p.data)
    rw [hx]
    simp only [List.map_cons, lookupSegs, mapGet_none_of_no_str hes]
  · intro v2
    simp [mapGet, yamlKeyEqStr]

/-- Witness for C10: a mapping with the bare numeric key `8080` does not
match the identically spelled segment `"8080"`. -/
theorem lookup_matches_only_string_keys_witness :
    mapGet [(Yaml.number 8080, Yaml.str "x")] "8080" = none ∧
    lookup_yaml_path (Yaml.mapping [(Yaml.number 8080, Yaml.str "x")]) "8080" = none :=
  ⟨(lookup_matches_only_string_keys (Yaml.number 8080) (fun _t h => Yaml.noConfusion h)
      (Yaml.str "x") [] "8080").1,
   (lookup_matches_only_string_keys (Yaml.number 8080) (fun _t h => Yaml.noConfusion h)
      (Yaml.str "x") [] "8080").2.2.1⟩

lemma indent_every_line_eq (value ind : Text) :
    indent_every_line value ind
      = ((splitInclusiveNL value).map fun part => ind ++ part).flatten := by
  unfold indent_every_line
  congr 1
  apply List.map_congr_left
  intro part _
  split
  · next heq =>
    have hne : part ≠ [] := by
      intro h
      rw [h] at heq
      simp at heq
    have hlast2 : part.getLast hne = '\n' := by
      have h2 := List.getLast?_eq_getLast part hne
      rw [heq] at h2
      exact (Option.some.inj h2).symm
    rw [List.append_assoc]
    congr 1
    rw [← hlast2]
    exact List.dropLast_append_getLast hne
  · rfl

/-- The leading whitespace of the line containing `pos`, up to `pos`
(used by both multi-line reinsertion strategies). -/
def lineIndentAt (input : Text) (pos : Nat) : Text :=
  (sliceT input (lineStartAt input pos) pos).takeWhile isWhiteSpaceChar

/-- Claim C5: for a multi-line resolved text, block-scalar promotion
applies exactly when the text before the occurrence on its line, trimmed
of trailing whitespace, ends in `:` or `-`, and the text after the
occurrence on that line is empty after trimming; the replacement is then
the header `|` — or `|+` when the resolved text ends in two or more
consecutive newlines — followed by a newline and every (inclusive) line
of the resolved text indented two spaces deeper than the occurrence's own
line indentation. -/
theorem block_scalar_promotion (value input : Text) (mStart mEnd : Nat)
    (hml : value.contains '\n' = true) :
    (should_use_yaml_block_scalar input mStart mEnd = true ↔
      ((rustTrimEnd (sliceT input (lineStartAt input mStart) mStart)).getLast? = some ':' ∨
       (rustTrimEnd (sliceT input (lineStartAt input mStart) mStart)).getLast? = some '-') ∧
      rustTrim (sliceT input mEnd (lineEndAt input mEnd)) = []) ∧
    (should_use_yaml_block_scalar input mStart mEnd = true →
      format_replacement_with_indent value input mStart mEnd =
        (if 1 < (value.reverse.takeWhile (· = '\n')).length then ['|', '+'] else ['|'])
          ++ '\n' :: ((splitInclusiveNL value).map
              fun line => (lineIndentAt input mStart ++ [' ', ' ']) ++ line).flatten) := by
  constructor
  · simp only [should_use_yaml_block_scalar, Bool.and_eq_true, Bool.or_eq_true, beq_iff_eq,
      List.isEmpty_iff]
  · intro hb
    unfold format_replacement_with_indent
    rw [hml]
    simp only [Bool.not_true, Bool.false_eq_true, if_false, hb, if_true]
    unfold format_as_yaml_block_scalar has_trailing_empty_lines
    simp only [indent_every_line_eq, decide_eq_true_eq, lineIndentAt]

/-- Witness for C5 at the spec's block-scalar example: `key: ` before the
occurrence, nothing after it, value `line1\nline2`, giving
`|` + newline + two-space-indented lines. -/
theorem block_scalar_promotion_witness :
    ("line1\nline2".data).contains '\n' = true ∧
    should_use_yaml_block_scalar "key: {{ .Values.script }}".data 5 25 = true ∧
    format_replacement_with_indent "line1\nline2".data "key: {{ .Values.script }}".data 5 25
      = "|\n  line1\n  line2".data := by
  refine ⟨by decide, by decide, ?_⟩
  have h := (block_scalar_promotion "line1\nline2".data "key: {{ .Values.script }}".data 5 25
    (by decide)).2 (by decide)
  exact h.trans (by decide)

/-- Claim C6's stated transformation: insert `ind` after every newline of
the value (the claim says every newline is followed by the leading
whitespace of the occurrence's line). -/
def indentAfterEveryNewline (value ind : Text) : Text :=
  value.flatMap fun c => if c = '\n' then c :: ind else [c]

/-- Decides whether every `'\n'` of `t` is immediately followed by `ind`. -/
def everyNewlineFollowedBy (t ind : Text) : Bool :=
  match t with
  | [] => true
  | c :: rest =>
    (if c = '\n' then ind.isPrefixOf rest else true) && everyNewlineFollowedBy rest ind

lemma indentAfterEveryNewline_eq_insert (ind : Text) :
    ∀ value : Text,
      indentAfterEveryNewline value ind
        = insertIndentAfterInnerNewlines ind value
          ++ (if value.getLast? = some '\n' then ind else []) := by
  intro value
  induction value with
  | nil => simp [indentAfterEveryNewline, insertIndentAfterInnerNewlines]
  | cons c rest ih =>
    cases rest with
    | nil =>
      by_cases hc : c = '\n'
      · subst hc
        simp [indentAfterEveryNewline, insertIndentAfterInnerNewlines]
      · simp [indentAfterEveryNewline, insertIndentAfterInnerNewlines, hc]
    | cons d rest2 =>
      by_cases hc : c = '\n'
      · subst hc
        simp only [indentAfterEveryNewline, List.flatMap_cons, if_true,
          insertIndentAfterInnerNewlines, List.getLast?_cons_cons] at ih ⊢
        simp only [show (('\n' : Char) = '\n') = True from by simp, if_true,
          List.isEmpty_cons, Bool.not_false, Bool.and_true]
        rw [ih]
        simp [List.append_assoc]
      · simp only [indentAfterEveryNewline, List.flatMap_cons, insertIndentAfterInnerNewlines,
          List.getLast?_cons_cons] at ih ⊢
        simp only [hc, if_false, Bool.false_and]
        rw [ih]
        simp

/-- Counterexample to claim C6 as stated: for the multi-line resolved
text `"a\n"` substituted by inline continuation (the preceding text ends
in `=`, so block-scalar promotion does not apply) with line leading
whitespace `"  "`, the trailing newline of the output is not followed by
that whitespace — the source only appends the indent after a newline that
still has a following character. -/
theorem inline_continuation_trailing_newline_counterexample :
    ("a\n".data).contains '\n' = true ∧
    should_use_yaml_block_scalar "  x = ${V}".data 6 10 = false ∧
    lineIndentAt "  x = ${V}".data 6 = "  ".data ∧
    indent_multiline_value "a\n".data "  x = ${V}".data 6 = "a\n".data ∧
    everyNewlineFollowedBy (indent_multiline_value "a\n".data "  x = ${V}".data 6)
      "  ".data = false ∧
    indent_multiline_value "a\n".data "  x = ${V}".data 6
      ≠ indentAfterEveryNewline "a\n".data "  ".data := by
  refine ⟨by decide, by decide, by decide, by decide, by decide, by decide⟩

/-- Claim C6 as amended: for a multi-line resolved text substituted by
inline continuation, every newline that is followed by at least one more
character of the resolved text is followed by the exact leading
whitespace of the occurrence's source line; equivalently, inserting the
indent after every newline equals the engine's output plus one spurious
trailing indent exactly when the value ends in a newline. -/
theorem inline_continuation_inner_newlines (value input : Text) (mStart mEnd : Nat)
    (hml : value.contains '\n' = true)
    (hnb : should_use_yaml_block_scalar input mStart mEnd = false) :
    format_replacement_with_indent value input mStart mEnd
      = indent_multiline_value value input mStart ∧
    indentAfterEveryNewline value (lineIndentAt input mStart)
      = indent_multiline_value value input mStart
        ++ (if value.getLast? = some '\n' then lineIndentAt input mStart else []) := by
  constructor
  · unfold format_replacement_with_indent
    rw [hml, hnb]
    simp
  · rw [indentAfterEveryNewline_eq_insert]
    congr 1
    unfold indent_multiline_value
    rw [hml]
    simp only [Bool.not_true, Bool.false_eq_true, if_false, lineIndentAt]

/-- Witness for the amended C6, mirroring the source's
`indent_multiline_value_uses_placeholder_line_indent` unit test: the
inner newline of the value is followed by the four-space line indent, and
the insert-after-every-newline form coincides because the value does not
end in a newline. -/
theorem inline_continuation_inner_newlines_witness :
    format_replacement_with_indent "echo first\necho second".data
        "data:\n  script: |\n    {{ .Values.script }}\n".data 23 43
      = "echo first\n    echo second".data ∧
    indentAfterEveryNewline "echo first\necho second".data
        (lineIndentAt "data:\n  script: |\n    {{ .Values.script }}\n".data 23)
      = "echo first\n    echo second".data := by
  have h := inline_continuation_inner_newlines "echo first\necho second".data
    "data:\n  script: |\n    {{ .Values.script }}\n".data 23 43 (by decide) (by decide)
  refine ⟨h.1.trans (by decide), h.2.trans (by decide)⟩

lemma charListLt_irrefl : ∀ l : Text, charListLt l l = false := by
  intro l
  induction l with
  | nil => rfl
  | cons c rest ih => simp [charListLt, ih]

lemma charListLt_trans : ∀ a b c : Text,
    charListLt a b = true → charListLt b c = true → charListLt a c = true := by
  intro a
  induction a with
  | nil =>
    intro b c hab hbc
    cases b with
    | nil => cases hab
    | cons y bs =>
      cases c with
      | nil => cases hbc
      | cons z cs => rfl
  | cons x as ih =>
    intro b c hab hbc
    cases b with
    | nil => cases hab
    | cons y bs =>
      cases c with
      | nil => cases hbc
      | cons z cs =>
        simp only [charListLt] at hab hbc ⊢
        by_cases h1 : x < y
        · by_cases h2 : y < z
          · simp [lt_trans h1 h2]
          · by_cases h3 : z < y
            · simp [h2, h3] at hbc
            · have hyz : y = z := le_antisymm (not_lt.mp h3) (not_lt.mp h2)
              subst hyz
              simp [h1]
        · by_cases h1b : y < x
          · simp [h1, h1b] at hab
          · have hxy : x = y := le_antisymm (not_lt.mp h1b) (not_lt.mp h1)
            subst hxy
            simp only [if_neg (lt_irrefl x)] at hab
            by_cases h2 : x < z
            · simp [h2]
            · by_cases h3 : z < x
              · simp [h2, h3] at hbc
              · have hxz : x = z := le_antisymm (not_lt.mp h3) (not_lt.mp h2)
                subst hxz
                simp only [if_neg (lt_irrefl x)] at hbc ⊢
                exact ih bs cs hab hbc

lemma charListLt_total : ∀ a b : Text, a ≠ b →
    charListLt a b = true ∨ charListLt b a = true := by
  intro a
  induction a with
  | nil =>
    intro b hne
    cases b with
    | nil => exact absurd rfl hne
    | cons y bs => left; rfl
  | cons x as ih =>
    intro b hne
    cases b with
    | nil => right; rfl
    | cons y bs =>
      rcases lt_trichotomy x y with hxy | hxy | hxy
      · left; simp [charListLt, hxy]
      · subst hxy
        have hne2 : as ≠ bs := fun h => hne (by rw [h])
        rcases ih bs hne2 with h | h
        · left; simp [charListLt, lt_irrefl, h]
        · right; simp [charListLt, lt_irrefl, h]
      · right; simp [charListLt, hxy]

lemma strLtB_irrefl (a : String) : strLtB a a = false := charListLt_irrefl a.data

lemma strLtB_trans {a b c : String} (h1 : strLtB a b = true) (h2 : strLtB b c = true) :
    strLtB a c = true := charListLt_trans a.data b.data c.data h1 h2

lemma strLtB_total {a b : String} (hne : a ≠ b) :
    strLtB a b = true ∨ strLtB b a = true := by
  have hd : a.data ≠ b.data := fun h => hne (by
    cases a
    cases b
    exact congrArg String.mk h)
  exact charListLt_total a.data b.data hd

lemma strLtB_ne {a b : String} (h : strLtB a b = true) : a ≠ b := by
  intro he
  subst he
  rw [strLtB_irrefl] at h
  cases h

/-- Sorted, duplicate-free key list (the `BTreeSet` invariant). -/
def SortedKeys (l : List String) : Prop := l.Pairwise fun x y => strLtB x y = true

lemma SortedKeys.nodup {l : List String} (h : SortedKeys l) : l.Nodup :=
  h.imp fun hxy => strLtB_ne hxy

lemma mem_insSorted (a x : String) : ∀ l : List String,
    x ∈ insSorted a l ↔ x = a ∨ x ∈ l := by
  intro l
  induction l with
  | nil => simp [insSorted]
  | cons b rest ih =>
    simp only [insSorted]
    split
    · simp only [List.mem_cons]
    · split
      · next h2 =>
        subst h2
        simp only [List.mem_cons]
        tauto
      · simp only [List.mem_cons, ih]
        tauto

lemma sortedKeys_insSorted (a : String) : ∀ l : List String,
    SortedKeys l → SortedKeys (insSorted a l) := by
  intro l
  induction l with
  | nil =>
    intro _
    simp [insSorted, SortedKeys]
  | cons b rest ih =>
    intro hs
    have hrest : SortedKeys rest := hs.sublist (List.sublist_cons_self b rest)
    have hb : ∀ x ∈ rest, strLtB b x = true := fun x hx => (List.pairwise_cons.mp hs).1 x hx
    simp only [insSorted]
    by_cases h1 : strLtB a b = true
    · rw [if_pos h1]
      refine List.pairwise_cons.mpr ⟨?_, hs⟩
      intro x hx
      rcases List.mem_cons.mp hx with he | hm
      · subst he; exact h1
      · exact strLtB_trans h1 (hb x hm)
    · rw [if_neg h1]
      by_cases h2 : a = b
      · rw [if_pos h2]; exact hs
      · rw [if_neg h2]
        refine List.pairwise_cons.mpr ⟨?_, ih hrest⟩
        intro x hx
        rcases (mem_insSorted a x rest).mp hx with he | hm
        · subst he
          rcases strLtB_total h2 with h | h
          · exact absurd h h1
          · exact h
        · exact hb x hm

lemma mem_unionSorted (x : String) : ∀ (other base : List String),
    x ∈ unionSorted base other ↔ x ∈ base ∨ x ∈ other := by
  intro other
  induction other with
  | nil => intro base; simp [unionSorted]
  | cons y rest ih =>
    intro base
    simp only [unionSorted, List.foldl_cons]
    have := ih (insSorted y base)
    simp only [unionSorted] at this
    rw [this, mem_insSorted]
    simp only [List.mem_cons]
    tauto

lemma sortedKeys_unionSorted : ∀ (other base : List String),
    SortedKeys base → SortedKeys (unionSorted base other) := by
  intro other
  induction other with
  | nil => intro base h; exact h
  | cons y rest ih =>
    intro base h
    simp only [unionSorted, List.foldl_cons]
    have := ih (insSorted y base) (sortedKeys_insSorted y base h)
    simpa [unionSorted] using this

lemma collect_placeholders_mem (t : Text) :
    (∀ x, x ∈ (collect_placeholders t).1 ↔ PKind.envKey x ∈ scanOccs t) ∧
    (∀ x, x ∈ (collect_placeholders t).2 ↔ PKind.valuesPath x ∈ scanOccs t) := by
  have hgen : ∀ (occs : List PKind) (acc : List String × List String) (x : String),
      (x ∈ (occs.foldl (fun acc k =>
        match k with
        | PKind.valuesPath p => (acc.1, insSorted p acc.2)
        | PKind.envKey v => (insSorted v acc.1, acc.2)) acc).1 ↔
        x ∈ acc.1 ∨ PKind.envKey x ∈ occs) ∧
      (x ∈ (occs.foldl (fun acc k =>
        match k with
        | PKind.valuesPath p => (acc.1, insSorted p acc.2)
        | PKind.envKey v => (insSorted v acc.1, acc.2)) acc).2 ↔
        x ∈ acc.2 ∨ PKind.valuesPath x ∈ occs) := by
    intro occs
    induction occs with
    | nil => intro acc x; simp
    | cons k rest ih =>
      intro acc x
      cases k with
      | valuesPath p =>
        simp only [List.foldl_cons]
        constructor
        · rw [(ih _ x).1]
          simp
        · rw [(ih _ x).2, mem_insSorted]
          simp only [List.mem_cons]
          constructor
          · rintro ((h | h) | h)
            · right; left; rw [h]
            · left; exact h
            · right; right; exact h
          · rintro (h | h | h)
            · left; right; exact h
            · left; left; injection h
            · right; exact h
      | envKey v =>
        simp only [List.foldl_cons]
        constructor
        · rw [(ih _ x).1, mem_insSorted]
          simp only [List.mem_cons]
          constructor
          · rintro ((h | h) | h)
            · right; left; rw [h]
            · left; exact h
            · right; right; exact h
          · rintro (h | h | h)
            · left; right; exact h
            · left; left; injection h
            · right; exact h
        · rw [(ih _ x).2]
          simp
  exact ⟨fun x => by
      have := (hgen (scanOccs t) ([], []) x).1
      simpa [collect_placeholders] using this,
    fun x => by
      have := (hgen (scanOccs t) ([], []) x).2
      simpa [collect_placeholders] using this⟩

lemma collect_placeholders_sorted (t : Text) :
    SortedKeys (collect_placeholders t).1 ∧ SortedKeys (collect_placeholders t).2 := by
  have hgen : ∀ (occs : List PKind) (acc : List String × List String),
      SortedKeys acc.1 → SortedKeys acc.2 →
      SortedKeys ((occs.foldl (fun acc k =>
        match k with
        | PKind.valuesPath p => (acc.1, insSorted p acc.2)
        | PKind.envKey v => (insSorted v acc.1, acc.2)) acc)).1 ∧
      SortedKeys ((occs.foldl (fun acc k =>
        match k with
        | PKind.valuesPath p => (acc.1, insSorted p acc.2)
        | PKind.envKey v => (insSorted v acc.1, acc.2)) acc)).2 := by
    intro occs
    induction occs with
    | nil => intro acc h1 h2; exact ⟨h1, h2⟩
    | cons k rest ih =>
      intro acc h1 h2
      cases k with
      | valuesPath p =>
        exact ih (acc.1, insSorted p acc.2) h1 (sortedKeys_insSorted p acc.2 h2)
      | envKey v =>
        exact ih (insSorted v acc.1, acc.2) (sortedKeys_insSorted v acc.1 h1) h2
  have := hgen (scanOccs t) ([], []) (by simp [SortedKeys]) (by simp [SortedKeys])
  simpa [collect_placeholders] using this

lemma collect_placeholders_all_mem (ts : List Text) :
    (∀ x, x ∈ (collect_placeholders_all ts).1 ↔
      ∃ t ∈ ts, PKind.envKey x ∈ scanOccs t) ∧
    (∀ x, x ∈ (collect_placeholders_all ts).2 ↔
      ∃ t ∈ ts, PKind.valuesPath x ∈ scanOccs t) := by
  have hgen : ∀ (ts : List Text) (acc : List String × List String) (x : String),
      (x ∈ (ts.foldl (fun acc t =>
          (unionSorted acc.1 (collect_placeholders t).1,
           unionSorted acc.2 (collect_placeholders t).2)) acc).1 ↔
        x ∈ acc.1 ∨ ∃ t ∈ ts, PKind.envKey x ∈ scanOccs t) ∧
      (x ∈ (ts.foldl (fun acc t =>
          (unionSorted acc.1 (collect_placeholders t).1,
           unionSorted acc.2 (collect_placeholders t).2)) acc).2 ↔
        x ∈ acc.2 ∨ ∃ t ∈ ts, PKind.valuesPath x ∈ scanOccs t) := by
    intro ts
    induction ts with
    | nil => intro acc x; simp
    | cons t rest ih =>
      intro acc x
      simp only [List.foldl_cons]
      constructor
      · rw [(ih _ x).1, mem_unionSorted, (collect_placeholders_mem t).1 x]
        simp only [List.mem_cons]
        constructor
        · rintro ((h | h) | ⟨u, hu, hx⟩)
          · left; exact h
          · right; exact ⟨t, Or.inl rfl, h⟩
          · right; exact ⟨u, Or.inr hu, hx⟩
        · rintro (h | ⟨u, (hu | hu), hx⟩)
          · left; left; exact h
          · left; right; rw [hu] at hx; exact hx
          · right; exact ⟨u, hu, hx⟩
      · rw [(ih _ x).2, mem_unionSorted, (collect_placeholders_mem t).2 x]
        simp only [List.mem_cons]
        constructor
        · rintro ((h | h) | ⟨u, hu, hx⟩)
          · left; exact h
          · right; exact ⟨t, Or.inl rfl, h⟩
          · right; exact ⟨u, Or.inr hu, hx⟩
        · rintro (h | ⟨u, (hu | hu), hx⟩)
          · left; left; exact h
          · left; right; rw [hu] at hx; exact hx
          · right; exact ⟨u, hu, hx⟩
  exact ⟨fun x => by
      have := (hgen ts ([], []) x).1
      simpa [collect_placeholders_all] using this,
    fun x => by
      have := (hgen ts ([], []) x).2
      simpa [collect_placeholders_all] using this⟩

lemma collect_placeholders_all_sorted (ts : List Text) :
    SortedKeys (collect_placeholders_all ts).1 ∧ SortedKeys (collect_placeholders_all ts).2 := by
  have hgen : ∀ (ts : List Text) (acc : List String × List String),
      SortedKeys acc.1 → SortedKeys acc.2 →
      SortedKeys ((ts.foldl (fun acc t =>
          (unionSorted acc.1 (collect_placeholders t).1,
           unionSorted acc.2 (collect_placeholders t).2)) acc)).1 ∧
      SortedKeys ((ts.foldl (fun acc t =>
          (unionSorted acc.1 (collect_placeholders t).1,
           unionSorted acc.2 (collect_placeholders t).2)) acc)).2 := by
    intro ts
    induction ts with
    | nil => intro acc h1 h2; exact ⟨h1, h2⟩
    | cons t rest ih =>
      intro acc h1 h2
      exact ih _ (sortedKeys_unionSorted (collect_placeholders t).1 acc.1 h1)
        (sortedKeys_unionSorted (collect_placeholders t).2 acc.2 h2)
  have := hgen ts ([], []) (by simp [SortedKeys]) (by simp [SortedKeys])
  simpa [collect_placeholders_all] using this

lemma lookup_accum_isSome {β : Type} (f : String → Option β) (g : String → β → String) :
    ∀ (l : List String) (v : String), v ∈ l → (f v).isSome = true →
      (List.lookup v (l.filterMap fun u => (f u).map fun x => (u, g u x))).isSome = true := by
  intro l
  induction l with
  | nil => intro v hv; cases hv
  | cons u rest ih =>
    intro v hv hs
    simp only [List.filterMap_cons]
    cases hfu : f u with
    | some x =>
      simp only [Option.map_some']
      by_cases hvu : v = u
      · subst hvu
        simp [List.lookup]
      · have hvr : v ∈ rest := by
          rcases List.mem_cons.mp hv with h | h
          · exact absurd h hvu
          · exact h
        have hbeq : (v == u) = false := by simp [hvu]
        simp only [List.lookup, hbeq]
        exact ih v hvr hs
    | none =>
      by_cases hvu : v = u
      · subst hvu
        rw [hfu] at hs
        cases hs
      · have hvr : v ∈ rest := by
          rcases List.mem_cons.mp hv with h | h
          · exact absurd h hvu
          · exact h
        exact ih v hvr hs

/-- The resolution computed by `run` for one batch: distinct keys over
all documents, then both missing lists in full. -/
def batchResolution (fileOnly : Bool) (vy : Option Yaml) (pm : List (String × String))
    (envF : String → Option String) (ts : List Text) : Resolution :=
  computeResolution fileOnly vy pm envF
    (collect_placeholders_all ts).1 (collect_placeholders_all ts).2

lemma runModel_cases (fileOnly ind : Bool) (vy : Option Yaml) (pm : List (String × String))
    (envF : String → Option String) (ts : List Text) :
    runModel fileOnly ind vy pm envF ts =
      (if (batchResolution fileOnly vy pm envF ts).missingEnv = []
          ∧ (batchResolution fileOnly vy pm envF ts).missingValues = [] then
        RunOut.rendered (ts.map (renderDoc ind
          (batchResolution fileOnly vy pm envF ts).valuesMap
          (batchResolution fileOnly vy pm envF ts).envMap))
      else
        RunOut.missing (batchResolution fileOnly vy pm envF ts).missingEnv
          (batchResolution fileOnly vy pm envF ts).missingValues) := by
  unfold runModel batchResolution
  by_cases h1 : (computeResolution fileOnly vy pm envF
      (collect_placeholders_all ts).1 (collect_placeholders_all ts).2).missingEnv = []
  · by_cases h2 : (computeResolution fileOnly vy pm envF
        (collect_placeholders_all ts).1 (collect_placeholders_all ts).2).missingValues = []
    · rw [if_pos, if_pos ⟨h1, h2⟩]
      simp [h1, h2]
    · rw [if_neg, if_neg (by tauto)]
      simp [h2]
  · rw [if_neg, if_neg (by tauto)]
    simp [h1]

lemma isSome_of_not_isNone {β : Type} {o : Option β} (h : ¬ o.isNone = true) :
    o.isSome = true := by
  cases o with
  | none => simp at h
  | some x => rfl

lemma envKey_resolved_nonFileOnly {vy pm envF ev vp} {v : String} (hv : v ∈ ev)
    (hme : (computeResolution false vy pm envF ev vp).missingEnv = []) :
    (List.lookup v (computeResolution false vy pm envF ev vp).envMap).isSome = true := by
  have hmap : (computeResolution false vy pm envF ev vp).envMap = (resolveEnvAll vy pm envF ev).1 := rfl
  have hmiss : (computeResolution false vy pm envF ev vp).missingEnv = (resolveEnvAll vy pm envF ev).2 := rfl
  rw [hmiss, resolveEnvAll_char] at hme
  have hall := List.filter_eq_nil_iff.mp hme v hv
  have hsome : (resolveEnvKey vy pm envF v).isSome = true :=
    isSome_of_not_isNone (by simpa using hall)
  rw [hmap, resolveEnvAll_char]
  exact lookup_accum_isSome (resolveEnvKey vy pm envF) (fun _ x => x) ev v hv hsome

lemma envKey_resolved_fileOnly {vy : Option Yaml} {pm envF} {ev vp : List String} {v : String}
    (hv : v ∈ ev)
    (hmv : (computeResolution true vy pm envF ev vp).missingValues = []) :
    (List.lookup v (computeResolution true vy pm envF ev vp).envMap).isSome = true := by
  have hne : ev.isEmpty = false := by
    cases ev with
    | nil => cases hv
    | cons a l => rfl
  have hmap : (computeResolution true vy pm envF ev vp).envMap
      = (resolve_env_from_values_file ev (vy.getD (Yaml.mapping []))).1 := by
    simp [computeResolution, hne]
  have hmiss : (computeResolution true vy pm envF ev vp).missingValues
      = (resolve_env_from_values_file ev (vy.getD (Yaml.mapping []))).2
        ++ (resolveValuesAll vy vp).2 := by
    simp [computeResolution, hne]
  rw [hmiss] at hmv
  have henv := (List.append_eq_nil.mp hmv).1
  rw [resolve_env_from_values_file_char] at henv
  have hfil := List.map_eq_nil_iff.mp henv
  have hall := List.filter_eq_nil_iff.mp hfil v hv
  have hsome : (lookup_yaml_path (vy.getD (Yaml.mapping [])) (env_var_values_path v)).isSome = true :=
    isSome_of_not_isNone (by simpa using hall)
  rw [hmap, resolve_env_from_values_file_char]
  exact lookup_accum_isSome (fun u => lookup_yaml_path (vy.getD (Yaml.mapping [])) (env_var_values_path u))
    (fun _ yv => yaml_value_to_string yv) ev v hv hsome

lemma valuesPath_resolved {fileOnly : Bool} {vy pm envF} {ev vp : List String} {p : String}
    (hp : p ∈ vp)
    (hmv : (computeResolution fileOnly vy pm envF ev vp).missingValues = []) :
    (List.lookup p (computeResolution fileOnly vy pm envF ev vp).valuesMap).isSome = true := by
  have hmap : (computeResolution fileOnly vy pm envF ev vp).valuesMap
      = (resolveValuesAll vy vp).1 := by
    cases fileOnly <;> simp [computeResolution]
  have hmiss : ∃ pre, (computeResolution fileOnly vy pm envF ev vp).missingValues
      = pre ++ (resolveValuesAll vy vp).2 := by
    cases fileOnly
    · exact ⟨[], by simp [computeResolution]⟩
    · by_cases hne : ev.isEmpty
      · exact ⟨[], by simp [computeResolution, hne]⟩
      · exact ⟨(resolve_env_from_values_file ev (vy.getD (Yaml.mapping []))).2,
          by simp [computeResolution, hne]⟩
  obtain ⟨pre, hpre⟩ := hmiss
  rw [hpre] at hmv
  have hvals := (List.append_eq_nil.mp hmv).2
  rw [resolveValuesAll_char] at hvals
  have hall := List.filter_eq_nil_iff.mp hvals p hp
  have hsome : (lookup_yaml_path (vy.getD (Yaml.mapping [])) p).isSome = true :=
    isSome_of_not_isNone (by simpa using hall)
  rw [hmap, resolveValuesAll_char]
  exact lookup_accum_isSome (fun q => lookup_yaml_path (vy.getD (Yaml.mapping [])) q)
    (fun _ w => yaml_value_to_string w) vp p hp hsome

/-- Claim C3: resolution is total-or-nothing.  Both missing lists are the
ones computed in full by the resolution phase over the whole batch; if
either is non-empty the run returns the missing report and no document is
rendered; the rendered outputs exist exactly when both lists are empty,
and then every occurrence of every document in the batch has its key
present in the corresponding resolved map. -/
theorem total_or_nothing (fileOnly ind : Bool) (vy : Option Yaml)
    (pm : List (String × String)) (envF : String → Option String) (ts : List Text) :
    (∀ me mv, runModel fileOnly ind vy pm envF ts = RunOut.missing me mv →
      me = (batchResolution fileOnly vy pm envF ts).missingEnv ∧
      mv = (batchResolution fileOnly vy pm envF ts).missingValues ∧
      ¬(me = [] ∧ mv = [])) ∧
    (∀ outs, runModel fileOnly ind vy pm envF ts = RunOut.rendered outs ↔
      (batchResolution fileOnly vy pm envF ts).missingEnv = [] ∧
      (batchResolution fileOnly vy pm envF ts).missingValues = [] ∧
      outs = ts.map (renderDoc ind (batchResolution fileOnly vy pm envF ts).valuesMap
        (batchResolution fileOnly vy pm envF ts).envMap)) ∧
    (∀ outs, runModel fileOnly ind vy pm envF ts = RunOut.rendered outs →
      ∀ t ∈ ts, ∀ k ∈ scanOccs t,
        (match k with
         | PKind.envKey v =>
           (List.lookup v (batchResolution fileOnly vy pm envF ts).envMap).isSome = true
         | PKind.valuesPath p =>
           (List.lookup p (batchResolution fileOnly vy pm envF ts).valuesMap).isSome = true)) := by
  rw [runModel_cases]
  by_cases hc : (batchResolution fileOnly vy pm envF ts).missingEnv = []
      ∧ (batchResolution fileOnly vy pm envF ts).missingValues = []
  · rw [if_pos hc]
    refine ⟨?_, ?_, ?_⟩
    · intro me mv h
      cases h
    · intro outs
      constructor
      · intro h
        injection h with h2
        exact ⟨hc.1, hc.2, h2.symm⟩
      · rintro ⟨-, -, h⟩
        rw [h]
    · intro outs _ t ht k hk
      cases k with
      | envKey v =>
        have hv : v ∈ (collect_placeholders_all ts).1 :=
          ((collect_placeholders_all_mem ts).1 v).mpr ⟨t, ht, hk⟩
        cases fileOnly with
        | false => exact envKey_resolved_nonFileOnly hv hc.1
        | true => exact envKey_resolved_fileOnly hv hc.2
      | valuesPath p =>
        have hp : p ∈ (collect_placeholders_all ts).2 :=
          ((collect_placeholders_all_mem ts).2 p).mpr ⟨t, ht, hk⟩
        exact valuesPath_resolved hp hc.2
  · rw [if_neg hc]
    refine ⟨?_, ?_, ?_⟩
    · intro me mv h
      injection h with h1 h2
      exact ⟨h1.symm, h2.symm, fun hemp => hc ⟨h1 ▸ hemp.1, h2 ▸ hemp.2⟩⟩
    · intro outs
      constructor
      · intro h
        cases h
      · rintro ⟨h1, h2, -⟩
        exact absurd ⟨h1, h2⟩ hc
    · intro outs h
      cases h

/-- Witness for C3 at the spec's end-to-end example: both missing lists
are empty and the batch renders. -/
theorem total_or_nothing_witness :
    runModel false false (some (Yaml.mapping [(Yaml.str "port", Yaml.number 8080)])) []
      (fun k => if k = "APP" then some "demo" else none)
      ["name: ${APP}\nport: {{ .Values.port }}\n".data]
      = RunOut.rendered ["name: demo\nport: 8080\n".data] ∧
    (batchResolution false (some (Yaml.mapping [(Yaml.str "port", Yaml.number 8080)])) []
      (fun k => if k = "APP" then some "demo" else none)
      ["name: ${APP}\nport: {{ .Values.port }}\n".data]).missingEnv = [] ∧
    (batchResolution false (some (Yaml.mapping [(Yaml.str "port", Yaml.number 8080)])) []
      (fun k => if k = "APP" then some "demo" else none)
      ["name: ${APP}\nport: {{ .Values.port }}\n".data]).missingValues = [] := by
  have h := (total_or_nothing false false
    (some (Yaml.mapping [(Yaml.str "port", Yaml.number 8080)])) []
    (fun k => if k = "APP" then some "demo" else none)
    ["name: ${APP}\nport: {{ .Values.port }}\n".data]).2.1
    ["name: demo\nport: 8080\n".data]
  have h2 := h.mp (by decide)
  exact ⟨by decide, h2.1, h2.2.1⟩

lemma charListLt_append_same : ∀ (p a b : Text),
    charListLt (p ++ a) (p ++ b) = charListLt a b := by
  intro p
  induction p with
  | nil => intro a b; rfl
  | cons c rest ih =>
    intro a b
    simp only [List.cons_append, charListLt, lt_irrefl, if_false]
    exact ih a b

lemma strLtB_append_left (p a b : String) : strLtB (p ++ a) (p ++ b) = strLtB a b := by
  unfold strLtB
  rw [data_append, data_append]
  exact charListLt_append_same p.data a.data b.data

/-- First-seen order of the env keys over a batch (order of first source
occurrence across the documents), which claim C4 asserts for the missing
lists. -/
def firstSeenEnvKeys (ts : List Text) : List String :=
  (ts.flatMap fun t => (scanOccs t).filterMap fun k =>
    match k with
    | PKind.envKey v => some v
    | PKind.valuesPath _ => none).foldl
    (fun acc v => if acc.contains v then acc else acc ++ [v]) []

/-- Counterexample to claim C4 as stated: a document whose unresolved env
keys first occur in the order `B`, `A` produces the missing-env list
`[A, B]` — ascending key order from the `BTreeSet`, not first-seen
order. -/
theorem missing_report_not_first_seen :
    runModel false false none [] (fun _ => none) ["b: ${B}\na: ${A}\n".data]
      = RunOut.missing ["A", "B"] [] ∧
    firstSeenEnvKeys ["b: ${B}\na: ${A}\n".data] = ["B", "A"] ∧
    (["A", "B"] : List String) ≠ ["B", "A"] := by
  refine ⟨by decide, by decide, by decide⟩

/-- Claim C4 as amended: the missing report of a batch presents the env
keys first (the `missing` constructor's first list) and the values paths
second; the env list is deduplicated and in ascending lexicographic key
order; the missing-values list is the reclassified `environment.*` paths
(ascending, deduplicated; present only in file-only mode) followed by the
missing values paths (ascending, deduplicated) — not first-seen order. -/
theorem missing_report_order (fileOnly ind : Bool) (vy : Option Yaml)
    (pm : List (String × String)) (envF : String → Option String) (ts : List Text) :
    SortedKeys (batchResolution fileOnly vy pm envF ts).missingEnv ∧
    (batchResolution fileOnly vy pm envF ts).missingEnv.Nodup ∧
    (∃ a b, (batchResolution fileOnly vy pm envF ts).missingValues = a ++ b ∧
      SortedKeys a ∧ a.Nodup ∧ SortedKeys b ∧ b.Nodup ∧
      (∀ x ∈ a, ∃ k, x = env_var_values_path k) ∧
      (fileOnly = false → a = [])) ∧
    (∀ me mv, runModel fileOnly ind vy pm envF ts = RunOut.missing me mv →
      me = (batchResolution fileOnly vy pm envF ts).missingEnv ∧
      mv = (batchResolution fileOnly vy pm envF ts).missingValues) := by
  have hev := (collect_placeholders_all_sorted ts).1
  have hvp := (collect_placeholders_all_sorted ts).2
  have hvalsb : SortedKeys ((collect_placeholders_all ts).2.filter fun p =>
      (lookup_yaml_path (vy.getD (Yaml.mapping [])) p).isNone) := hvp.filter _
  refine ⟨?_, ?_, ?_, ?_⟩
  · cases fileOnly with
    | false =>
      have : (batchResolution false vy pm envF ts).missingEnv
          = (collect_placeholders_all ts).1.filter fun v =>
            (resolveEnvKey vy pm envF v).isNone := by
        show (resolveEnvAll vy pm envF (collect_placeholders_all ts).1).2 = _
        rw [resolveEnvAll_char]
      rw [this]
      exact hev.filter _
    | true =>
      have : (batchResolution true vy pm envF ts).missingEnv = [] := by
        by_cases hne : (collect_placeholders_all ts).1.isEmpty <;>
          simp [batchResolution, computeResolution, hne]
      rw [this]
      exact List.Pairwise.nil
  · cases fileOnly with
    | false =>
      have : (batchResolution false vy pm envF ts).missingEnv
          = (collect_placeholders_all ts).1.filter fun v =>
            (resolveEnvKey vy pm envF v).isNone := by
        show (resolveEnvAll vy pm envF (collect_placeholders_all ts).1).2 = _
        rw [resolveEnvAll_char]
      rw [this]
      exact ((hev.filter _).imp fun hxy => strLtB_ne hxy)
    | true =>
      have : (batchResolution true vy pm envF ts).missingEnv = [] := by
        by_cases hne : (collect_placeholders_all ts).1.isEmpty <;>
          simp [batchResolution, computeResolution, hne]
      rw [this]
      exact List.nodup_nil
  · cases fileOnly with
    | false =>
      refine ⟨[], (collect_placeholders_all ts).2.filter fun p =>
        (lookup_yaml_path (vy.getD (Yaml.mapping [])) p).isNone, ?_, ?_, ?_, ?_, ?_, ?_, ?_⟩
      · show ([] : List String)
          ++ (resolveValuesAll vy (collect_placeholders_all ts).2).2 = _
        rw [resolveValuesAll_char]
      · exact List.Pairwise.nil
      · exact List.nodup_nil
      · exact hvalsb
      · exact hvalsb.nodup
      · intro x hx; cases hx
      · intro _; rfl
    | true =>
      by_cases hne : (collect_placeholders_all ts).1.isEmpty
      · refine ⟨[], (collect_placeholders_all ts).2.filter fun p =>
          (lookup_yaml_path (vy.getD (Yaml.mapping [])) p).isNone, ?_, ?_, ?_, ?_, ?_, ?_, ?_⟩
        · show (batchResolution true vy pm envF ts).missingValues = _
          have : (batchResolution true vy pm envF ts).missingValues
              = (resolveValuesAll vy (collect_placeholders_all ts).2).2 := by
            simp [batchResolution, computeResolution, hne]
          rw [this, resolveValuesAll_char]
          simp
        · exact List.Pairwise.nil
        · exact List.nodup_nil
        · exact hvalsb
        · exact hvalsb.nodup
        · intro x hx; cases hx
        · intro h; cases h
      · have hsa : SortedKeys (((collect_placeholders_all ts).1.filter fun v =>
            (lookup_yaml_path (vy.getD (Yaml.mapping []))
              (env_var_values_path v)).isNone).map env_var_values_path) := by
          refine List.Pairwise.map env_var_values_path ?_ (hev.filter _)
          intro a b hab
          unfold env_var_values_path
          rw [strLtB_append_left]
          exact hab
        refine ⟨((collect_placeholders_all ts).1.filter fun v =>
            (lookup_yaml_path (vy.getD (Yaml.mapping []))
              (env_var_values_path v)).isNone).map env_var_values_path,
          (collect_placeholders_all ts).2.filter fun p =>
            (lookup_yaml_path (vy.getD (Yaml.mapping [])) p).isNone,
          ?_, hsa, hsa.nodup, hvalsb, hvalsb.nodup, ?_, ?_⟩
        · have : (batchResolution true vy pm envF ts).missingValues
              = (resolve_env_from_values_file (collect_placeholders_all ts).1
                  (vy.getD (Yaml.mapping []))).2
                ++ (resolveValuesAll vy (collect_placeholders_all ts).2).2 := by
            simp [batchResolution, computeResolution, hne]
          rw [this, resolve_env_from_values_file_char, resolveValuesAll_char]
        · intro x hx
          obtain ⟨k, _, hk⟩ := List.mem_map.mp hx
          exact ⟨k, hk.symm⟩
        · intro h; cases h
  · intro me mv h
    rw [runModel_cases] at h
    split at h
    · cases h
    · injection h with h1 h2
      exact ⟨h1.symm, h2.symm⟩

/-- Witness for the amended C4: on the counterexample batch the report's
lists are exactly the computed missing lists (env keys first, values
paths second). -/
theorem missing_report_order_witness :
    (["A", "B"] : List String)
        = (batchResolution false none [] (fun _ => none)
            ["b: ${B}\na: ${A}\n".data]).missingEnv ∧
    ([] : List String)
        = (batchResolution false none [] (fun _ => none)
            ["b: ${B}\na: ${A}\n".data]).missingValues :=
  (missing_report_order false false none [] (fun _ => none)
    ["b: ${B}\na: ${A}\n".data]).2.2.2 ["A", "B"] [] (by decide)

lemma paraStartGo_le (input : Text) (lines : List (Nat × Nat)) :
    ∀ i, paraStartGo input lines i ≤ i := by
  intro i
  induction i with
  | zero => simp [paraStartGo]
  | succ n ih =>
    simp only [paraStartGo]
    split
    · exact le_rfl
    · omega

lemma findAnchor_eq (input : Text) (lines : List (Nat × Nat)) (ps : Nat) :
    ∀ (fuel i : Nat), fuel = i - ps → ps ≤ i →
      findAnchorGo input lines ps fuel i
        = ((List.range' ps (i + 1 - ps)).filter fun j =>
            is_list_item_line (trim_line_ending (lineTextAt input lines j))).getLast? := by
  intro fuel
  induction fuel with
  | zero =>
    intro i hf hle
    have : i = ps := by omega
    subst this
    have h1 : i + 1 - i = 1 := by omega
    rw [h1]
    simp only [List.range'_one, findAnchorGo]
    by_cases hm : is_list_item_line (trim_line_ending (lineTextAt input lines i))
    · simp [hm]
    · simp [hm]
  | succ n ih =>
    intro i hf hle
    have hgt : ps < i := by omega
    have h1 : i + 1 - ps = (i - ps) + 1 := by omega
    rw [h1, show i - ps = n + 1 from hf.symm]
    rw [List.range'_concat]
    rw [List.filter_append]
    have hps : ps + 1 * (n + 1) = i := by omega
    rw [hps]
    simp only [findAnchorGo]
    by_cases hm : is_list_item_line (trim_line_ending (lineTextAt input lines i))
    · rw [if_pos hm]
      simp only [List.filter_cons, hm, if_true, List.filter_nil]
      rw [List.getLast?_concat]
    · rw [if_neg hm, if_neg (by omega)]
      simp only [List.filter_cons, hm, Bool.false_eq_true, if_false, List.filter_nil,
        List.append_nil]
      have h2 := ih (i - 1) (by omega) (by omega)
      rw [show i - 1 + 1 - ps = n + 1 from by omega] at h2
      exact h2

lemma findEnd_eq (input : Text) (lines : List (Nat × Nat)) (pe aIndent : Nat) :
    ∀ (fuel idx : Nat), pe + 1 - idx ≤ fuel →
      findEndGo input lines pe aIndent fuel idx
        = (match (List.range' idx (pe + 1 - idx)).find? (fun i =>
              (rustTrim (trim_line_ending (lineTextAt input lines i))).isEmpty ||
              (is_list_item_line (trim_line_ending (lineTextAt input lines i)) &&
                decide (leading_spaces (trim_line_ending (lineTextAt input lines i)) ≤ aIndent))) with
            | some i => i - 1
            | none => pe) := by
  intro fuel
  induction fuel with
  | zero =>
    intro idx hle
    have h0 : pe + 1 - idx = 0 := by omega
    rw [h0]
    simp [findEndGo, List.range']
  | succ n ih =>
    intro idx hle
    by_cases hgt : pe < idx
    · have h0 : pe + 1 - idx = 0 := by omega
      rw [h0]
      simp [findEndGo, hgt, List.range']
    · have h1 : pe + 1 - idx = (pe - idx) + 1 := by omega
      rw [h1, List.range'_succ]
      simp only [findEndGo, List.find?]
      rw [if_neg hgt]
      by_cases hb : (rustTrim (trim_line_ending (lineTextAt input lines idx))).isEmpty
      · simp [hb]
      · simp only [hb, Bool.false_eq_true, if_false, Bool.false_or]
        by_cases hm : is_list_item_line (trim_line_ending (lineTextAt input lines idx)) &&
            decide (leading_spaces (trim_line_ending (lineTextAt input lines idx)) ≤ aIndent)
        · simp [hm]
        · simp only [hm, Bool.false_eq_true, if_false]
          have h2 := ih (idx + 1) (by omega)
          rw [show pe + 1 - (idx + 1) = pe - idx from by omega] at h2
          exact h2

/-- The enclosing-list-item narrowing as claim C7 words it: the anchor is
the closest list-marker line at or before the occurrence's line (within
its paragraph — an item enclosing the occurrence cannot start before the
blank line bounding the paragraph), and the extent runs forward until the
first blank line or list-marker line at indentation at most the anchor's,
or else the paragraph end. -/
def list_entry_bounds_claimed (input : Text) (lines : List (Nat × Nat))
    (lineIdx ps pe : Nat) : Option (Nat × Nat) :=
  match ((List.range' ps (lineIdx + 1 - ps)).filter fun j =>
      is_list_item_line (trim_line_ending (lineTextAt input lines j))).getLast? with
  | none => none
  | some a =>
    some (a,
      match (List.range' (a + 1) (pe + 1 - (a + 1))).find? (fun i =>
          (rustTrim (trim_line_ending (lineTextAt input lines i))).isEmpty ||
          (is_list_item_line (trim_line_ending (lineTextAt input lines i)) &&
            decide (leading_spaces (trim_line_ending (lineTextAt input lines i))
              ≤ leading_spaces (trim_line_ending (lineTextAt input lines a))))) with
      | some i => i - 1
      | none => pe)

lemma list_entry_bounds_eq (input : Text) (lines : List (Nat × Nat))
    (lineIdx ps pe : Nat) (hps : ps ≤ lineIdx) :
    list_entry_bounds input lines lineIdx ps pe
      = list_entry_bounds_claimed input lines lineIdx ps pe := by
  unfold list_entry_bounds list_entry_bounds_claimed
  rw [findAnchor_eq input lines ps (lineIdx - ps) lineIdx rfl hps]
  cases hA : ((List.range' ps (lineIdx + 1 - ps)).filter fun j =>
      is_list_item_line (trim_line_ending (lineTextAt input lines j))).getLast? with
  | none => rfl
  | some a =>
    simp only []
    rw [findEnd_eq input lines pe
      (leading_spaces (trim_line_ending (lineTextAt input lines a))) (pe + 1) (a + 1) (by omega)]

/-- The extended-context excerpt as claim C7 words it: the paragraph when
it references exactly one distinct key; otherwise the nearest enclosing
list item; otherwise the occurrence's single line. -/
def extract_prompt_context_claimed (input : Text) (mStart : Nat) : Text :=
  let lines := line_ranges input
  let li := (line_index_for_pos lines mStart).getD 0
  let pb := paragraph_bounds input lines li
  let paraText := paragraphTextAt input mStart
  let keys := collect_prompt_keys paraText
  if keys.length = 1 then trim_surrounding_newlines paraText
  else
    match list_entry_bounds_claimed input lines li pb.1 pb.2 with
    | some b =>
      trim_surrounding_newlines
        (sliceT input ((lines[b.1]?.getD (0, 0)).1) ((lines[b.2]?.getD (0, 0)).2))
    | none => trim_line_ending (lineTextAt input lines li)

/-- Claim C7: with the extended-context flag set, for an occurrence whose
key the surrounding paragraph references, the excerpt equals the claim's
description: the maximal blank-line-delimited paragraph when it references
exactly one distinct key; otherwise the nearest enclosing list item (the
closest list-marker line at or before the occurrence's line, extended
forward until a blank line, the paragraph end, or a later list-marker line
at indentation at most the anchor's); otherwise the single line. -/
theorem extended_context_excerpt (input : Text) (mStart : Nat) (key : String)
    (hkey : key ∈ collect_prompt_keys (paragraphTextAt input mStart)) :
    extract_prompt_context input mStart key true
      = extract_prompt_context_claimed input mStart := by
  unfold extract_prompt_context extract_prompt_context_claimed
  have hcont : (collect_prompt_keys (paragraphTextAt input mStart)).contains key = true :=
    List.elem_iff.mpr hkey
  have hps := paraStartGo_le input (line_ranges input)
    ((line_index_for_pos (line_ranges input) mStart).getD 0)
  rw [if_neg (by decide : ¬((!true) = true))]
  simp only [paragraph_bounds]
  by_cases hlen : (collect_prompt_keys (paragraphTextAt input mStart)).length = 1
  · rw [if_pos (show (decide ((collect_prompt_keys (paragraphTextAt input mStart)).length = 1)
        && (collect_prompt_keys (paragraphTextAt input mStart)).contains key) = true by
          rw [hcont, hlen]
          simp),
      if_pos hlen]
  · rw [if_neg (show ¬((decide ((collect_prompt_keys (paragraphTextAt input mStart)).length = 1)
        && (collect_prompt_keys (paragraphTextAt input mStart)).contains key) = true) by
          simp [hlen]),
      if_neg hlen]
    rw [list_entry_bounds_eq input (line_ranges input)
      ((line_index_for_pos (line_ranges input) mStart).getD 0) _ _ hps]

/-- Witness for C7 at the spec's context-narrowing example: the paragraph
references two distinct keys, so the excerpt for `B` narrows to its
enclosing list item. -/
theorem extended_context_excerpt_witness :
    "environment.B" ∈ collect_prompt_keys
      (paragraphTextAt "items:\n  - user: ${A}\n    note: x\n  - user: ${B}\n".data 44) ∧
    extract_prompt_context "items:\n  - user: ${A}\n    note: x\n  - user: ${B}\n".data 44
      "environment.B" true = "  - user: ${B}".data ∧
    extract_prompt_context_claimed
      "items:\n  - user: ${A}\n    note: x\n  - user: ${B}\n".data 44
      = "  - user: ${B}".data := by
  have h := extended_context_excerpt
    "items:\n  - user: ${A}\n    note: x\n  - user: ${B}\n".data 44 "environment.B" (by decide)
  exact ⟨by decide, by decide, h.symm.trans (by decide)⟩
